import Mathlib

/-!
# Verification of the `patristic` tree core of CDCgov/TidyTree

Shallow embedding of the tree data model and algorithms of
`src/dist/tidytree.js` (the bundled `patristic` 0.5.7 library):
the `Branch` class, `fixDistances`, `excise`, `invert`/`reroot`,
`depthOf`/`getMRCA`/`distanceTo`, `toNewick`/`parseNewick`,
`toMatrix`, and the neighbor-joining `parseMatrix`.

Modelling conventions:
* JavaScript numbers are modelled as `ℚ` (the inputs considered are exact
  decimals; no claim here depends on float rounding).
* `_guid` (a random unique string per constructed `Branch`) is modelled as a
  `ℕ` tag; object identity (`===`/`!==`) between branches of live trees is
  guid equality.
* The cyclic parent/child pointer graph of a consistent tree is modelled as a
  rose tree; a branch object is designated by the path of child indices from
  the root, and `parent` is the path with its last index removed.  For the one
  claim about an *inconsistent* pointer graph (`addChild` without detach), a
  separate explicit arena model with stored parent pointers is used.
* JavaScript runtime type errors (property access on `undefined`/`null`) are
  modelled as `Except.error .typeError`; explicit `throw Error(msg)` as
  `Except.error (.thrown msg)`.
-/

namespace Patristic

/-- A JavaScript value sitting in the `id` field of a `Branch`: `parseNewick`
and explicit labels produce strings, while `parseMatrix` with labels omitted
produces raw numbers (`labels = [...Array(N).keys()]`). -/
inductive JId where
  | str (s : String)
  | num (n : ℕ)
deriving DecidableEq, Repr

/-- The JS truthiness default `data.id || ""` from the `Branch` constructor:
the falsy ids (`""`, `0`, absent) collapse to `""`. -/
def JId.orEmpty : Option JId → JId
  | none => .str ""
  | some (.str "") => .str ""
  | some (.num 0) => .str ""
  | some v => v

/-- A JS numeric field that may also be `undefined` or `NaN`.  Used for the
`representing` counter, which the constructor never initializes (it sets a
misspelled `respresenting` field instead), so it starts out `undefined`. -/
inductive JNum where
  | undef
  | nan
  | num (q : ℚ)
deriving DecidableEq, Repr

/-- JS `x++` semantics on a possibly-undefined numeric field:
`undefined + 1` and `NaN + 1` are `NaN`. -/
def JNum.inc : JNum → JNum
  | .undef => .nan
  | .nan => .nan
  | .num q => .num (q + 1)

/-- A JavaScript exception: either an engine `TypeError` (property access on
`undefined`/`null`) or an explicit `throw Error(msg)`. -/
inductive JErr where
  | typeError
  | thrown (msg : String)
deriving DecidableEq, Repr

/-- The scalar fields of a `Branch` object (everything except `children`),
as assigned by the constructor in tidytree.js:

```js
Object.assign(this, { _guid: guid(), id: data.id || "", data: data,
  depth: data.depth || 0, height: data.height || 0, length: data.length || 0,
  parent: data.parent || null, children: children(data) || [],
  value: data.value || 1, respresenting: 1 });
```

`parent` is implicit in the rose-tree representation and `data` is an alias of
the constructor argument, so neither is stored. -/
structure BFields where
  guid : ℕ
  id : JId
  length : ℚ
  value : ℚ
  depth : ℕ
  height : ℕ
  /-- The constructor's misspelled field, always `1`. -/
  respresenting : ℚ
  /-- The field `excise` increments; never set by the constructor. -/
  representing : JNum
deriving DecidableEq, Repr

/-- A `Branch` tree: scalar fields plus the ordered `children` list. -/
inductive Branch where
  | node (f : BFields) (children : List Branch)

namespace Branch

/-- Fresh branch as built by `new Branch({id, length})`. -/
def mkNew (guid : ℕ) (id : Option JId) (length : ℚ) : Branch :=
  .node ⟨guid, JId.orEmpty id, length, 1, 0, 0, 1, .undef⟩ []

def fields : Branch → BFields
  | .node f _ => f

def children : Branch → List Branch
  | .node _ cs => cs

@[simp] theorem fields_node (f : BFields) (cs : List Branch) :
    (Branch.node f cs).fields = f := rfl

@[simp] theorem children_node (f : BFields) (cs : List Branch) :
    (Branch.node f cs).children = cs := rfl

/-- `isLeaf()`: no children. -/
def isLeaf (b : Branch) : Bool := b.children.isEmpty

mutual

/-- Number of branches in the tree (the branch itself and all descendants). -/
def size : Branch → ℕ
  | .node _ cs => 1 + sizeL cs
termination_by structural t => t

def sizeL : List Branch → ℕ
  | [] => 0
  | c :: cs => size c + sizeL cs
termination_by structural l => l

end

mutual

/-- Guids of the branch and all its descendants, in pre-order
(`eachBefore` order). -/
def allGuids : Branch → List ℕ
  | .node f cs => f.guid :: allGuidsL cs
termination_by structural t => t

def allGuidsL : List Branch → List ℕ
  | [] => []
  | c :: cs => allGuids c ++ allGuidsL cs
termination_by structural l => l

end

mutual

/-- Pre-order list of `depth` fields. -/
def allDepths : Branch → List ℕ
  | .node f cs => f.depth :: allDepthsL cs
termination_by structural t => t

def allDepthsL : List Branch → List ℕ
  | [] => []
  | c :: cs => allDepths c ++ allDepthsL cs
termination_by structural l => l

end

mutual

/-- Pre-order list of `height` fields. -/
def allHeights : Branch → List ℕ
  | .node f cs => f.height :: allHeightsL cs
termination_by structural t => t

def allHeightsL : List Branch → List ℕ
  | [] => []
  | c :: cs => allHeights c ++ allHeightsL cs
termination_by structural l => l

end

mutual

/-- Pre-order list of `value` fields. -/
def allValues : Branch → List ℚ
  | .node f cs => f.value :: allValuesL cs
termination_by structural t => t

def allValuesL : List Branch → List ℚ
  | [] => []
  | c :: cs => allValues c ++ allValuesL cs
termination_by structural l => l

end

/-! ## `fixDistances`

```js
Branch.prototype.fixDistances = function() {
  let maxdepth = 0, root = this.getRoot();
  root.depth = 0;
  this.eachBefore(d => {
    if (d.isRoot()) return;
    d.depth = d.parent.depth + 1;
    if (d.depth > maxdepth) maxdepth = d.depth;
  }).eachAfter(d => {
    d.height = maxdepth - d.depth;
    d.value = d.value + d.children.reduce((a, c) => a + c.value, 0);
  });
  return this;
};
```

All call sites in the library invoke it with `this` at the root (the parser,
`parseMatrix`, and `reroot` all return the root), so it is modelled as a
whole-tree recomputation: the pre-order pass assigns `depth` (0 at the root,
parent + 1 below) while recording the maximum depth, and the post-order pass
assigns `height = maxdepth - depth` and `value += Σ children's (new) values`.
-/

mutual

/-- The pre-order depth pass: assign `d` to this branch, `d+1` to children. -/
def setDepths (d : ℕ) : Branch → Branch
  | .node f cs => .node { f with depth := d } (setDepthsL (d + 1) cs)
termination_by structural t => t

def setDepthsL (d : ℕ) : List Branch → List Branch
  | [] => []
  | c :: cs => setDepths d c :: setDepthsL d cs
termination_by structural l => l

end

mutual

/-- Maximum of the stored `depth` fields over the whole tree (the value of the
`maxdepth` accumulator after the pre-order pass; it starts at 0 and the root's
depth is 0, so including the root is harmless). -/
def maxDepth : Branch → ℕ
  | .node f cs => max f.depth (maxDepthL cs)
termination_by structural t => t

def maxDepthL : List Branch → ℕ
  | [] => 0
  | c :: cs => max (maxDepth c) (maxDepthL cs)
termination_by structural l => l

end

mutual

/-- The post-order pass: `height := maxd - depth` and
`value := value + Σ children's values`, children updated first. -/
def setHV (maxd : ℕ) : Branch → Branch
  | .node f cs =>
    let cs' := setHVL maxd cs
    .node { f with height := maxd - f.depth,
                   value := f.value + (cs'.map (fun c => c.fields.value)).sum } cs'
termination_by structural t => t

def setHVL (maxd : ℕ) : List Branch → List Branch
  | [] => []
  | c :: cs => setHV maxd c :: setHVL maxd cs
termination_by structural l => l

end

/-- `fixDistances()` called at the root of the tree. -/
def fixDistances (t : Branch) : Branch :=
  let t1 := setDepths 0 t
  setHV (maxDepth t1) t1

/-! ## Paths: designating a branch object inside a tree

A live branch of a consistent tree is designated by the list of child indices
leading to it from the root; `[]` is the root itself.  `parent` is `dropLast`.
-/

/-- Child-index path from the root. -/
abbrev Path := List ℕ

/-- The branch at a path, if the path is valid. -/
def nodeAt : Branch → Path → Option Branch
  | t, [] => some t
  | .node _ cs, i :: p =>
    match cs[i]? with
    | some c => nodeAt c p
    | none => none

/-- The guid of the branch at a path. -/
def guidAt (t : Branch) (p : Path) : Option ℕ :=
  (nodeAt t p).map (fun b => b.fields.guid)

/-- Sum of the `length` fields of the branches *entered* along a path (the
branch at each step, excluding the starting root).  This is the quantity
`depthOf` computes when walking from the end of the path back to the root. -/
def pathSum : Branch → Path → ℚ
  | _, [] => 0
  | .node _ cs, i :: p =>
    match cs[i]? with
    | some c => c.fields.length + pathSum c p
    | none => 0

/-- Apply `g` to the element at index `i` of a list, if present. -/
def modifyIdx (g : α → α) : ℕ → List α → List α
  | _, [] => []
  | 0, x :: xs => g x :: xs
  | n + 1, x :: xs => x :: modifyIdx g n xs

/-- Rewrite the branch at path `p` with `fn` (identity on invalid paths). -/
def modifyAt (fn : Branch → Branch) : Branch → Path → Branch
  | t, [] => fn t
  | .node f cs, i :: p => .node f (modifyIdx (fun c => modifyAt fn c p) i cs)

/-! ## `excise`

```js
Branch.prototype.excise = function() {
  if (this.isRoot() && this.children.length > 1) {
    throw new Error("Cannot excise a root Branch with multiple children.");
  }
  this.eachChild(child => {
    child.length += this.length;
    child.parent = this.parent;
    if (!this.isRoot()) this.parent.children.push(child);
  });
  this.parent.children.splice(this.parent.children.indexOf(this), 1);
  this.parent.representing++;
  return this.parent;
};
```

For a non-root branch `b = parent.children[i]`: each child of `b` gets
`length += b.length` and is pushed onto the end of `parent.children`; then `b`
itself is spliced out; finally `parent.representing++`.  Since the pushes
happen before the splice, the parent's new children list is
`parent.children.eraseIdx i ++ (children of b, lengths bumped)`.
Note `representing` was never initialized by the constructor (which sets the
misspelled `respresenting`), so `representing++` produces `NaN`. -/
def addLength (q : ℚ) : Branch → Branch
  | .node f cs => .node { f with length := f.length + q } cs

/-- `excise()` of child `i` of the given branch, as seen from that parent. -/
def exciseChild (i : ℕ) : Branch → Branch
  | .node f cs =>
    match cs[i]? with
    | none => .node f cs
    | some b =>
      .node { f with representing := f.representing.inc }
        (cs.eraseIdx i ++ b.children.map (addLength b.fields.length))

/-- `b.excise()` for the non-root branch `b` at path `pp ++ [i]` of tree `t`;
returns the whole modified tree (the caller's root). -/
def excise (t : Branch) (pp : Path) (i : ℕ) : Branch :=
  modifyAt (exciseChild i) t pp

/-! ## `invert` and `reroot`

```js
Branch.prototype.invert = function() {
  let oldParent = this.parent;
  if (oldParent) {
    let temp = this.parent.length;
    this.parent.length = this.length;
    this.length = temp;
    this.parent = oldParent.parent;
    this.children.push(oldParent);
    oldParent.parent = this;
    oldParent.children.splice(oldParent.children.indexOf(this), 1);
  } else { throw Error("Cannot invert root node!"); }
  return this;
};

Branch.prototype.reroot = function() {
  let current = this;
  let toInvert = [];
  while (!current.isRoot()) { toInvert.push(current); current = current.parent; }
  toInvert.reverse().forEach(c => c.invert());
  return this.fixDistances();
};
```

`reroot` collects the chain from `this` up to the root and inverts top-down:
each step swaps the then-root with its child on the chain.  So each step is
`invert` applied to child `i` of the current root: lengths of the two are
swapped, the old root (minus that child) is appended at the end of the child's
children, and the child becomes the new root.  The remaining chain keeps its
child indices, so rerooting at the branch with path `p` is the left fold of
these root inversions over `p`. -/
def invertRoot (i : ℕ) : Branch → Branch
  | .node f cs =>
    match cs[i]? with
    | none => .node f cs
    | some (.node cf ccs) =>
      .node { cf with length := f.length }
        (ccs ++ [.node { f with length := cf.length } (cs.eraseIdx i)])

/-- The chain of inversions performed by `reroot` on the branch at path `p`. -/
def rerootPath : Path → Branch → Branch
  | [], t => t
  | i :: p, t => rerootPath p (invertRoot i t)

/-- `b.reroot()` for `b` at path `p`: invert the chain, then `fixDistances`. -/
def reroot (t : Branch) (p : Path) : Branch := fixDistances (rerootPath p t)

/-! ## `depthOf`, `getMRCA`, `distanceTo` / `distanceBetween`

```js
Branch.prototype.depthOf = function(descendant) {
  let distance = 0;
  if (typeof descendant == "string") descendant = this.getDescendant(descendant);
  if (typeof descendant == "undefined")
    throw Error("Cannot compute depth of undefined descendant!");
  let current = descendant;
  while (current != this) { distance += current.length; current = current.parent; }
  return distance;
};
```

The walk climbs parent pointers from `descendant`, comparing object identity
with `this` (guid equality in the model), accumulating `length` on the way.
If `this` is never met, the walk steps above the root: `current` becomes
`null`, the `current != this` test still passes, and `current.length` throws a
TypeError.  The `typeof descendant == "string"` arm is not modelled (all
claims pass branch objects). -/
def depthOfGo (t : Branch) (g : ℕ) : Path → ℚ → Except JErr ℚ
  | p, acc =>
    match nodeAt t p with
    | none => .error .typeError
    | some cur =>
      if cur.fields.guid = g then .ok acc
      else if h : p = [] then .error .typeError
      else depthOfGo t g p.dropLast (acc + cur.fields.length)
termination_by p _ => p.length
decreasing_by
  simp only [List.length_dropLast]
  exact Nat.sub_lt (List.length_pos.mpr h) Nat.one_pos

/-- `self.depthOf(descendant)` with `self` at `pself` and the descendant at
`pdesc` (both in tree `t`). -/
def depthOf (t : Branch) (pself pdesc : Path) : Except JErr ℚ :=
  match guidAt t pself with
  | none => .error .typeError
  | some g => depthOfGo t g pdesc 0

/-- Guids of the *strict* descendants of a branch (`getDescendants()` with
`includeSelf` falsy, as called from `hasDescendant`). -/
def strictDescGuids : Branch → List ℕ
  | .node _ cs => allGuidsL cs

/-- `getMRCA(cousin)` climbing loop:

```js
Branch.prototype.getMRCA = function(cousin) {
  let mrca = this;
  while (!mrca.hasDescendant(cousin)) {
    if (mrca.isRoot())
      throw Error("Branch and cousin do not appear to share a common ancestor!");
    mrca = mrca.parent;
  }
  return mrca;
};
```

Note `hasDescendant` checks *strict* descendants, so the loop does not stop at
`cousin` itself or below it, and it throws whenever `cousin` is the root. -/
def getMRCA (t : Branch) : Path → ℕ → Except JErr Path
  | p, gy =>
    match nodeAt t p with
    | none => .error .typeError
    | some m =>
      if (strictDescGuids m).contains gy then .ok p
      else if h : p = [] then
        .error (.thrown "Branch and cousin do not appear to share a common ancestor!")
      else getMRCA t p.dropLast gy
termination_by p _ => p.length
decreasing_by
  simp only [List.length_dropLast]
  exact Nat.sub_lt (List.length_pos.mpr h) Nat.one_pos

/-- `this.distanceTo(cousin)` with `this` at `px`, `cousin` at `py`:
`mrca.depthOf(this) + mrca.depthOf(cousin)` for `mrca = this.getMRCA(cousin)`. -/
def distanceTo (t : Branch) (px py : Path) : Except JErr ℚ :=
  match guidAt t py with
  | none => .error .typeError
  | some gy =>
    match getMRCA t px gy with
    | .error e => .error e
    | .ok m =>
      match depthOf t m px, depthOf t m py with
      | .ok d1, .ok d2 => .ok (d1 + d2)
      | .error e, _ => .error e
      | _, .error e => .error e

/-- `distanceBetween(descendantA, descendantB)` computes exactly the same
`mrca.depthOf(a) + mrca.depthOf(b)` sum. -/
def distanceBetween (t : Branch) (px py : Path) : Except JErr ℚ :=
  distanceTo t px py

mutual

/-- Path of the (first, in pre-order) branch with guid `g`. -/
def findPathG : Branch → ℕ → Option Path
  | .node f cs, g => if f.guid = g then some [] else findPathGL cs g 0
termination_by structural t => t

def findPathGL : List Branch → ℕ → ℕ → Option Path
  | [], _, _ => none
  | c :: cs, g, i =>
    match findPathG c g with
    | some p => some (i :: p)
    | none => findPathGL cs g (i + 1)
termination_by structural l => l

end

/-- Index shift produced by `splice`-ing index `i` out of a children list:
former index `j ≠ i` becomes `j` (if below `i`) or `j - 1`. -/
def shiftIdx (i j : ℕ) : ℕ := if j < i then j else j - 1

/-- How `excise` at child `i` of the branch at `pp` renames the path of a
branch it does not remove: paths through another child `j` of the parent
have that index shifted by the splice, all other paths are untouched.
(The children of the excised branch itself are reattached elsewhere; claims
using this map exclude them.) -/
def exciseMap (pp : Path) (i : ℕ) (p : Path) : Path :=
  if p.take pp.length = pp ∧ pp.length < p.length then
    pp ++ shiftIdx i (p.getD pp.length 0) :: p.drop (pp.length + 1)
  else p

/-- How a single root inversion at child `i` (whose own child count is `M`)
renames the path of a surviving branch: branches inside the inverted child
drop the leading `i`; every other branch is now reached through the old root,
which `invert` appends at index `M` of the new root's children with the
inverted child spliced out of its children (`shiftIdx`).  The old root itself
becomes `[M]`. -/
def invMap (i M : ℕ) : Path → Path
  | [] => [M]
  | j :: r => if j = i then r else M :: shiftIdx i j :: r

/-- The child count of child `i` of the root (the index at which `invert`
appends the old root to the new root's children list). -/
def invM (t : Branch) (i : ℕ) : ℕ :=
  match t.children[i]? with
  | some c => c.children.length
  | none => 0

/-- The composite renaming of surviving paths along the whole `reroot` chain
of inversions. -/
def rerootMap : Path → Branch → Path → Path
  | [], _, z => z
  | i :: p, t, z => rerootMap p (invertRoot i t) (invMap i (invM t i) z)

/-- Longest common prefix of two paths (the most recent common ancestor of
two branches designated by paths). -/
def lcp : List ℕ → List ℕ → List ℕ
  | i :: p, j :: q => if i = j then i :: lcp p q else []
  | _, _ => []

/-- The patristic distance between the branches at `px` and `py` computed
through their deepest common ancestor: the sum of the lengths strictly below
the meet along each path. -/
def distLcp (t : Branch) (px py : Path) : ℚ :=
  (pathSum t px - pathSum t (lcp px py)) + (pathSum t py - pathSum t (lcp px py))

/-- The branch at `p` exists and is a leaf. -/
def isLeafAt (t : Branch) (p : Path) : Prop :=
  ∃ f, nodeAt t p = some (.node f [])

/-- `distanceBetween` on the branch objects identified by guid. -/
def distanceBetweenG (t : Branch) (gx gy : ℕ) : Except JErr ℚ :=
  match findPathG t gx, findPathG t gy with
  | some px, some py => distanceBetween t px py
  | _, _ => .error .typeError

mutual

/-- Paths of the leaves of the tree, in `getLeaves()` traversal order. -/
def leafPaths : Branch → List Path
  | .node _ [] => [[]]
  | .node _ (c :: cs) => leafPathsL (c :: cs) 0
termination_by structural t => t

def leafPathsL : List Branch → ℕ → List Path
  | [], _ => []
  | c :: cs, i => (leafPaths c).map (fun p => i :: p) ++ leafPathsL cs (i + 1)
termination_by structural l => l

end

end Branch

/-- Shorthand for a test branch with the given guid, length, value 1, and
children (the state of a freshly parsed node). -/
def tb (guid : ℕ) (len : ℚ) (cs : List Branch) : Branch :=
  .node ⟨guid, .str "", len, 1, 0, 0, 1, .undef⟩ cs

/-- A two-node tree: a root with a single leaf child. -/
def twoNode : Branch := tb 0 0 [tb 1 1 []]

/-- A root with two leaf children (guids 1 and 2, lengths 1 and 2). -/
def cherry : Branch := tb 0 0 [tb 1 1 [], tb 2 2 []]

/-- A two-edge chain: root (guid 0) → a (guid 1, length 1) → b (guid 2, length 2). -/
def chain3 : Branch := tb 0 0 [tb 1 1 [tb 2 2 []]]

/-- Root with three children: an internal branch (guid 1) holding one leaf
(guid 2), and two leaves (guids 3, 4). -/
def c5tree : Branch := tb 0 0 [tb 1 1 [tb 2 2 []], tb 3 3 [], tb 4 4 []]

/-! ## The mutable pointer graph, for `addChild` / `isConsistent`

```js
Branch.prototype.addChild = function(data) {
  let c;
  if (data instanceof Branch) {
    c = data;
    c.parent = this;
  } else { ... }
  this.children.push(c);
  return c;
};

Branch.prototype.isConsistent = function() {
  if (!this.isRoot()) {
    if (!this.parent.children.includes(this)) return false;
  }
  if (!this.isLeaf()) {
    if (this.children.some(c => c.parent !== this)) return false;
    return this.children.every(c => c.isConsistent());
  }
  return true;
};
```

`addChild` mutates parent/children pointers without detaching `data` from its
previous parent, so the rose-tree model above cannot express the resulting
graph; these operations are modelled on an explicit arena of nodes with
parent and children links, node identity being the arena index. -/

/-- A live `Branch` object's link structure. -/
structure ANode where
  parent : Option ℕ
  children : List ℕ
deriving DecidableEq, Repr

/-- The heap of live `Branch` objects; a branch's identity is its index. -/
abbrev Arena := List ANode

/-- `q.addChild(c)` for an existing Branch `c` (the `data instanceof Branch`
arm): first `c.parent = this`, then `this.children.push(c)`. -/
def addChildA (a : Arena) (q c : ℕ) : Arena :=
  let a1 := match a[c]? with
    | some nc => a.set c { nc with parent := some q }
    | none => a
  match a1[q]? with
  | some nq => a1.set q { nq with children := nq.children ++ [c] }
  | none => a1

/-- `isConsistent()`, fuelled (the JS recursion diverges on a cyclic
`children` graph; claims supply enough fuel): the parent-link check, and, if
not a leaf, the children's parent checks and the recursive consistency of the
children. -/
def isConsistentA (a : Arena) : ℕ → ℕ → Bool
  | 0, _ => true
  | fuel + 1, i =>
    match a[i]? with
    | none => true
    | some n =>
      (match n.parent with
       | some pp =>
         match a[pp]? with
         | some npp => npp.children.contains i
         | none => false
       | none => true) &&
      (if n.children.isEmpty then true
       else
        n.children.all (fun ch =>
          match a[ch]? with
          | some nch => nch.parent == some i
          | none => false) &&
        n.children.all (fun ch => isConsistentA a fuel ch))

/-- A parent chain in the arena: `chainUpB a x ys r` holds when walking the
branches `ys` upward from `x` (each listing the previous one among its
children) ends at `r`. -/
def chainUpB (a : Arena) : ℕ → List ℕ → ℕ → Bool
  | x, [], r => x == r
  | x, y :: ys, r =>
    (match a[y]? with
     | some n => n.children.contains x
     | none => false) && chainUpB a y ys r

/-- Concrete four-object heap: root 0 with children 1 (= `p`) and 3 (= `q`),
and 2 (= `c`) the child of `p`. -/
def c10arena : Arena :=
  [⟨none, [1, 3]⟩, ⟨some 0, [2]⟩, ⟨some 1, []⟩, ⟨some 0, []⟩]

/-! ## `parseNewick` and `toNewick`

```js
function parseNewick(newick) {
  let ancestors = [],
    tree = new Branch(),
    tokens = newick.split(/\s*(;|\(|\)|,|:)\s*/),
    n = tokens.length;
  for (let t = 0; t < n; t++) {
    let token = tokens[t];
    let c;
    switch (token) {
      case "(": c = tree.addChild(); ancestors.push(tree); tree = c; break;
      case ",": c = ancestors[ancestors.length - 1].addChild(); tree = c; break;
      case ")": tree = ancestors.pop(); break;
      case ":": break;
      default:
        let x = tokens[t - 1];
        if (x == ")" || x == "(" || x == ",") {
          tree.id = token;
        } else if (x == ":") {
          tree.length = parseFloat(token);
        }
    }
  }
  return tree.fixDistances();
}
```

`String.split` with a capture group returns a strictly alternating
text/delimiter stream: a leading text token, then (delimiter, text) pairs.
The model works on that token stream directly (so it implicitly assumes ids
contain no delimiter characters or surrounding whitespace, which already hold
for every id the serializer below can emit).  Note:

* the loop starts with `t = 0` on the leading text token, whose `tokens[-1]`
  is `undefined`, so that token is always *ignored*;
* `";"` has no `case` and falls into `default`; in an alternating stream its
  predecessor is a text token, so it is a no-op;
* `")"` with an empty `ancestors` stack sets `tree = undefined`; the crash
  (TypeError) only happens at the *next* id/length assignment or `addChild`;
* `tree.length = parseFloat(token)` can store `NaN`, modelled as `none`.

A text token carries the raw string `s` (assigned by `tree.id = token`) and
`val`, its `parseFloat` value (`none` for NaN; number tokens carry the exact
rational, the claim's floating-point-tolerance allowance). -/

inductive Delim where
  | lp
  | rp
  | comma
  | colon
  | semi
deriving DecidableEq, Repr

structure TextTok where
  s : String
  val : Option ℚ
deriving DecidableEq, Repr

/-- The result of `newick.split(/\s*(;|\(|\)|,|:)\s*/)`. -/
structure TokStream where
  first : TextTok
  chunks : List (Delim × TextTok)
deriving DecidableEq, Repr

/-- A completed parse subtree (id, `length` with `none` = NaN, children). -/
inductive PTree where
  | node (id : String) (plen : Option ℚ) (children : List PTree)

/-- A `Branch` under construction: its current id, length and the children
completed so far. -/
structure PNode where
  id : String
  plen : Option ℚ
  kids : List PTree

def PNode.toPTree (n : PNode) : PTree := .node n.id n.plen n.kids

/-- `new Branch()`: id `""` (`data.id || ""`), length 0 (`length(data) || 0`),
no children. -/
def freshPNode : PNode := ⟨"", some 0, []⟩

/-- Parser state: `ancestors` stack and the current `tree` pointer (`none`
models `undefined` after popping an empty stack). -/
structure PState where
  ancestors : List PNode
  cur : Option PNode

/-- The `switch` arm for a delimiter token. -/
def stepDelim (st : PState) : Delim → Except JErr PState
  | .lp =>
    match st.cur with
    | none => .error .typeError
    | some n => .ok ⟨n :: st.ancestors, some freshPNode⟩
  | .comma =>
    match st.ancestors with
    | [] => .error .typeError
    | a :: rest =>
      match st.cur with
      | some n =>
        .ok ⟨{ a with kids := a.kids ++ [n.toPTree] } :: rest, some freshPNode⟩
      | none => .ok ⟨a :: rest, some freshPNode⟩
  | .rp =>
    match st.ancestors with
    | [] => .ok ⟨[], none⟩
    | a :: rest =>
      match st.cur with
      | some n => .ok ⟨rest, some { a with kids := a.kids ++ [n.toPTree] }⟩
      | none => .ok ⟨rest, some a⟩
  | .colon => .ok st
  | .semi => .ok st

/-- The `default` arm for the text token following delimiter `d`. -/
def stepText (st : PState) (d : Delim) (tok : TextTok) : Except JErr PState :=
  match d with
  | .lp | .comma | .rp =>
    match st.cur with
    | none => .error .typeError
    | some n => .ok ⟨st.ancestors, some { n with id := tok.s }⟩
  | .colon =>
    match st.cur with
    | none => .error .typeError
    | some n => .ok ⟨st.ancestors, some { n with plen := tok.val }⟩
  | .semi => .ok st

/-- The token loop over the (delimiter, text) chunks. -/
def runChunks : PState → List (Delim × TextTok) → Except JErr PState
  | st, [] => .ok st
  | st, (d, tok) :: rest =>
    match stepDelim st d with
    | .error e => .error e
    | .ok st1 =>
      match stepText st1 d tok with
      | .error e => .error e
      | .ok st2 => runChunks st2 rest

/-- `parseNewick`: the leading text token is ignored (its `tokens[t-1]` is
`undefined`), then the chunks run; the final `tree.fixDistances()`
dereferences `tree`, crashing when it is `undefined`, and returns the
*current* branch (not necessarily a root). -/
def parseNewickM (ts : TokStream) : Except JErr PTree :=
  match runChunks ⟨[], some freshPNode⟩ ts.chunks with
  | .error e => .error e
  | .ok st =>
    match st.cur with
    | some n => .ok n.toPTree
    | none => .error .typeError

/-! ### `toNewick`, at the token level

```js
Branch.prototype.toNewick = function(nonterminus) {
  let out = "";
  if (!this.isLeaf()) {
    out +=
      "(" + this.children.map(child => child.toNewick(true)).join(",") + ")";
  }
  out += this.id;
  if (this.length) out += ":" + numberToString(this.length);
  if (!nonterminus) out += ";";
  return out;
};
```

The serializer is defined on the skeleton a Newick string can express: an id
*string* and a rational length per node (`NSk`).  Zero lengths are omitted
(`if (this.length)` — 0 is falsy), matching the parser's default of 0. -/

inductive NSk where
  | node (id : String) (length : ℚ) (children : List NSk)

mutual

/-- The expected parse of a serialized skeleton: same ids, topology and
lengths (`some`, the parser's representation of a stored number). -/
def toP : NSk → PTree
  | .node id len cs => .node id (some len) (toPL cs)
termination_by structural s => s

def toPL : List NSk → List PTree
  | [] => []
  | c :: cs => toP c :: toPL cs
termination_by structural l => l

end

/-- The `":" + numberToString(length)` tail, emitted only for truthy (nonzero)
lengths.  The number token's `val` is the exact rational; its string form is
never consulted by the parser. -/
def lenTail (q : ℚ) : List (Delim × TextTok) :=
  if q = 0 then [] else [(.colon, ⟨"", some q⟩)]

mutual

/-- Token stream of `toNewick(true)` for one subtree: its leading text token
(the id for a leaf, `""` before the `"("` of an internal node) and its
remaining chunks. -/
def serC : NSk → TextTok × List (Delim × TextTok)
  | .node id len [] => (⟨id, none⟩, lenTail len)
  | .node id len (c :: cs) =>
    (⟨"", none⟩,
      (.lp, (serC c).1) ::
        ((serC c).2 ++ (serL cs ++ ((.rp, ⟨id, none⟩) :: lenTail len))))
termination_by structural s => s

/-- The `"," + child` chunks of the remaining children. -/
def serL : List NSk → List (Delim × TextTok)
  | [] => []
  | c :: cs => (.comma, (serC c).1) :: ((serC c).2 ++ serL cs)
termination_by structural l => l

end

/-- Token stream of `toNewick()` at the terminus: the subtree's stream plus
the final `";"` (which the split follows with an empty text token). -/
def serStream (s : NSk) : TokStream :=
  ⟨(serC s).1, (serC s).2 ++ [(.semi, ⟨"", none⟩)]⟩

/-! ## `parseMatrix`: neighbor joining

Faithful translation of `parseMatrix` / `search` /
`recalculateDistanceMatrix` / `sumRows` / `sortWithIndices`
(tidytree.js, adapted from biosustain/neighbor-joining), with JS numbers as
exact rationals (the claims' "approximately" allowance).  Conventions:

* `D`, `S`, `I`, `rowSums`, `currIndexToLabel`, `labelToNode` are JS arrays
  mutated by index → functional lists rebuilt per step;
* `removedIndices` and `indicesLeft` are JS `Set`s; `Set` iteration follows
  insertion order, so `indicesLeft` is an ordered list (`delete` = erase) and
  the final `left.next()` pair is its first two entries;
* `qMin` starts at `Infinity` → `Option ℚ` with `none = Infinity`;
* `minI`/`minJ` start at `-1` → `ℤ`; a negative index surviving to an array
  access would be a JS crash, modelled as `none` (never reached on the
  concrete inputs of the claims);
* in `sumRows`, `typeof parseFloat(x)` is always `"number"`, so the `continue`
  is dead code and each row sums left-to-right;
* JS `Array.sort` is stable and the comparator is numeric ascending →
  `List.mergeSort` with `≤`;
* `new Branch(...)` draws `_guid` from a counter threaded through the state;
* `fixParenthood()` repairs parent pointers only, a no-op for the value
  model. -/

def getQ (D : List (List ℚ)) (i j : ℕ) : ℚ := (D.getD i []).getD j 0

/-- `q < qMin` with `qMin` possibly `Infinity`. -/
def qlt (q : ℚ) : Option ℚ → Bool
  | none => true
  | some m => decide (q < m)

/-- `x > qMin` with `qMin` possibly `Infinity`. -/
def qgt (x : ℚ) : Option ℚ → Bool
  | none => false
  | some m => decide (m < x)

/-- `sortWithIndices(toSort, skip)`: drop `-1` (removed) entries and the
`skip` column, sort the surviving indices by value (stably), and return the
sorted values with their indices. -/
def sortWithIndices (toSort : List ℚ) (skip : ℕ) : List ℚ × List ℕ :=
  let idx := (List.range toSort.length).filter
    (fun i => !(toSort.getD i 0 == -1) && !(i == skip))
  let sortedIdx := idx.mergeSort
    (fun a b => decide (toSort.getD a 0 ≤ toSort.getD b 0))
  (sortedIdx.map (fun i => toSort.getD i 0), sortedIdx)

def sumRows (a : List (List ℚ)) : List ℚ :=
  a.map (fun row => row.foldl (· + ·) 0)

structure NJState where
  N : ℕ
  cN : ℕ
  D : List (List ℚ)
  S : List (List ℚ)
  I : List (List ℕ)
  removedIndices : List ℕ
  indicesLeft : List ℕ
  currIndexToLabel : List ℤ
  labelToNode : List (Option Branch)
  nextIndex : ℕ
  rowSums : List ℚ
  rowSumMax : ℚ
  labels : List JId
  guidCtr : ℕ

/-- One candidate update of `search`'s running minimum
(`q = D[r][c2] * n2 - rowSums[r] - rowSums[c2]; if (q < qMin) ...`). -/
def searchUpd (st : NJState) (n2 : ℚ) (r c2 : ℕ)
    (acc : Option ℚ × ℤ × ℤ) : Option ℚ × ℤ × ℤ :=
  let q := getQ st.D r c2 * n2 - st.rowSums.getD r 0 - st.rowSums.getD c2 0
  if qlt q acc.1 then (some q, (r : ℤ), (c2 : ℤ)) else acc

/-- The initial-guess loop of `search` (nearest neighbour of each live row). -/
def searchInit (st : NJState) (n2 : ℚ) : Option ℚ × ℤ × ℤ :=
  (List.range st.N).foldl
    (fun acc r =>
      if st.removedIndices.contains r then acc
      else
        match (st.I.getD r [])[0]? with
        | none => acc
        | some c2 =>
          if st.removedIndices.contains c2 then acc
          else searchUpd st n2 r c2 acc)
    (none, -1, -1)

/-- The inner loop of `search` over row `r`'s sorted entries, with the early
`break` when `S[r][c] * n2 - rowSums[r] - uMax > qMin`. -/
def searchRow (st : NJState) (n2 : ℚ) (r : ℕ) :
    List ℚ → List ℕ → Option ℚ × ℤ × ℤ → Option ℚ × ℤ × ℤ
  | sv :: svs, c2 :: ics, acc =>
    if qgt (sv * n2 - st.rowSums.getD r 0 - st.rowSumMax) acc.1 then acc
    else
      searchRow st n2 r svs ics
        (if st.removedIndices.contains c2 then acc
         else searchUpd st n2 r c2 acc)
  | _, _, acc => acc

def searchM (st : NJState) : Option ℚ × ℤ × ℤ :=
  let n2 : ℚ := (st.cN : ℚ) - 2
  (List.range st.N).foldl
    (fun acc r =>
      if st.removedIndices.contains r then acc
      else searchRow st n2 r (st.S.getD r []) (st.I.getD r []) acc)
    (searchInit st n2)

/-- `recalculateDistanceMatrix(t, minI, minJ)`: mark `minI` removed, write
`-1` across its row and column, replace row/column `minJ` by the new joined
distances, update the row sums, and recompute the running `rowSumMax` (the
maximum sees `minJ`'s *intermediate* `+= rowChange` value before the final
`rowSums[minJ] = sum` assignment, exactly as in the JS loop). -/
def recalcM (st : NJState) (minI minJ : ℕ) : NJState :=
  let n := st.D.length
  let removed' := st.removedIndices ++ [minI]
  let aux2 := getQ st.D minI minJ
  let newRow := fun i =>
    (1/2 : ℚ) * (getQ st.D minI i + getQ st.D minJ i - aux2)
  let rowChange := fun i =>
    -(1/2 : ℚ) * (getQ st.D minI i + getQ st.D minJ i + aux2)
  let liveIdx := (List.range n).filter (fun i => !(removed'.contains i))
  let sum := liveIdx.foldl (fun s i => s + newRow i) 0
  let D' := (List.range n).map (fun x =>
    (List.range n).map (fun y =>
      if x = minI ∨ y = minI then -1
      else if x = minJ then
        (if removed'.contains y then getQ st.D x y else newRow y)
      else if y = minJ then
        (if removed'.contains x then getQ st.D x y else newRow x)
      else getQ st.D x y))
  let rowSums' := (List.range n).map (fun i =>
    if i = minI then 0
    else if i = minJ then sum
    else if removed'.contains i then st.rowSums.getD i 0
    else st.rowSums.getD i 0 + rowChange i)
  let newMax := liveIdx.foldl
    (fun m i =>
      let v := st.rowSums.getD i 0 + rowChange i
      if m < v then v else m) 0
  let newMax' := if newMax < sum then sum else newMax
  { st with
    D := D'
    rowSums := rowSums'
    rowSumMax := newMax'
    removedIndices := removed'
    indicesLeft := st.indicesLeft.erase minI }

/-- `setUpNode(labelIndex, distance)`: an original label index makes a fresh
leaf `Branch` (with the constructor's `data.id || ""` collapsing) and stores
it in `labelToNode`; a joined index retrieves its stored internal node and
`setLength`s it. -/
def setUpNodeM (st : NJState) (labelIndex : ℤ) (distance : ℚ) :
    Option (Branch × NJState) :=
  if labelIndex < (st.N : ℤ) then
    match labelIndex with
    | .ofNat li =>
      let node := Branch.mkNew st.guidCtr st.labels[li]? distance
      some (node, { st with
        labelToNode := st.labelToNode.set li (some node)
        guidCtr := st.guidCtr + 1 })
    | .negSucc _ => none
  else
    match labelIndex with
    | .ofNat li =>
      match st.labelToNode.getD li none with
      | some (.node f cs) => some (.node { f with length := distance } cs, st)
      | none => none
    | .negSucc _ => none

/-- One iteration of the `while (that.cN > 2)` loop. -/
def njStep (st : NJState) : Option NJState :=
  match searchM st with
  | (_, .ofNat minI, .ofNat minJ) =>
    let dij := getQ st.D minI minJ
    let d1 := (1/2 : ℚ) * dij +
      (st.rowSums.getD minI 0 - st.rowSums.getD minJ 0) /
        (2 * (st.cN : ℚ) - 4)
    let d2 := dij - d1
    let l1 := st.currIndexToLabel.getD minI 0
    let l2 := st.currIndexToLabel.getD minJ 0
    match setUpNodeM st l1 d1 with
    | none => none
    | some (node1, st1) =>
      match setUpNodeM st1 l2 d2 with
      | none => none
      | some (node2, st2) =>
        let node3 : Branch :=
          .node ⟨st2.guidCtr, .str "", 0, 1, 0, 0, 1, .undef⟩ [node1, node2]
        let st3 := { st2 with guidCtr := st2.guidCtr + 1 }
        let st4 := recalcM st3 minI minJ
        let sorted := sortWithIndices (st4.D.getD minJ []) minJ
        some { st4 with
          S := (st4.S.set minJ sorted.1).set minI []
          I := (st4.I.set minJ sorted.2).set minI []
          cN := st4.cN - 1
          labelToNode := st4.labelToNode.set st4.nextIndex (some node3)
          currIndexToLabel :=
            (st4.currIndexToLabel.set minI (-1)).set minJ (st4.nextIndex : ℤ)
          nextIndex := st4.nextIndex + 1 }
  | _ => none

/-- The `while` loop, fuelled by the iteration count (`cN` drops by one per
iteration, so `N` fuel always suffices). -/
def njLoop : ℕ → NJState → Option NJState
  | 0, st => if st.cN ≤ 2 then some st else none
  | fuel + 1, st =>
    if st.cN ≤ 2 then some st
    else
      match njStep st with
      | none => none
      | some st' => njLoop fuel st'

/-- The state set up by the preamble of `parseMatrix(matrix, labels)`;
`labels` omitted (`none`) defaults to `[...Array(N).keys()]` — raw
*numbers*, not strings. -/
def njInit (matrix : List (List ℚ)) (labels : Option (List JId)) : NJState :=
  let N := matrix.length
  let labs := match labels with
    | some ls => ls
    | none => (List.range N).map (fun i => JId.num i)
  let SI := (List.range N).map (fun i => sortWithIndices (matrix.getD i []) i)
  { N := N
    cN := N
    D := matrix
    S := SI.map Prod.fst
    I := SI.map Prod.snd
    removedIndices := []
    indicesLeft := List.range N
    currIndexToLabel := (List.range N).map (fun i => (i : ℤ))
    labelToNode := List.replicate (2 * N) none
    nextIndex := N
    rowSums := sumRows matrix
    rowSumMax := ((sumRows matrix).take N).foldl
      (fun m v => if m < v then v else m) 0
    labels := labs
    guidCtr := 0 }

/-- The final join after the `while` loop: the two surviving indices (in
`Set` insertion order), `d1 = d2 = D[minI][minJ] / 2`, the root
`new Branch({children})`, `fixParenthood` (a pointer no-op here) and
`fixDistances`. -/
def njFinish (st' : NJState) : Option Branch :=
  match st'.indicesLeft with
  | minI :: minJ :: _ =>
    let d := getQ st'.D minI minJ / 2
    let l1 := st'.currIndexToLabel.getD minI 0
    let l2 := st'.currIndexToLabel.getD minJ 0
    match setUpNodeM st' l1 d with
    | none => none
    | some (node1, st1) =>
      match setUpNodeM st1 l2 d with
      | none => none
      | some (node2, st2) =>
        some (Branch.fixDistances
          (.node ⟨st2.guidCtr, .str "", 0, 1, 0, 0, 1, .undef⟩
            [node1, node2]))
  | _ => none

/-- `parseMatrix(matrix, labels)`. -/
def parseMatrixM (matrix : List (List ℚ)) (labels : Option (List JId)) :
    Option Branch :=
  match njLoop matrix.length (njInit matrix labels) with
  | none => none
  | some st' => njFinish st'

/-- `toMatrix()`: pairwise `distanceTo` over `getLeaves()` in traversal
order; the `j < i` entry and its `(j, i)` mirror are both
`leafs[i].distanceTo(leafs[j])`, the diagonal is 0. -/
def toMatrixM (t : Branch) : List (List (Except JErr ℚ)) :=
  let ps := Branch.leafPaths t
  (List.range ps.length).map (fun i =>
    (List.range ps.length).map (fun j =>
      if i = j then .ok 0
      else if j < i then Branch.distanceTo t (ps.getD i []) (ps.getD j [])
      else Branch.distanceTo t (ps.getD j []) (ps.getD i [])))

/-- The ids of `getLeaves()`, in traversal order. -/
def leafIds (t : Branch) : List JId :=
  (Branch.leafPaths t).map (fun p =>
    ((Branch.nodeAt t p).map (fun b => b.fields.id)).getD (.str ""))

/-- The ids of the children that are leaves. -/
def childLeafIds : List Branch → List JId
  | [] => []
  | .node f [] :: cs => f.id :: childLeafIds cs
  | .node _ (_ :: _) :: cs => childLeafIds cs

mutual

/-- Some branch of the tree has two leaf children carrying these ids (the
two taxa form a cherry, i.e. are a sister pair). -/
def hasSisterPair : Branch → JId → JId → Bool
  | .node _ cs, x, y =>
    ((childLeafIds cs).contains x && (childLeafIds cs).contains y) ||
      hasSisterPairL cs x y
termination_by structural t => t

def hasSisterPairL : List Branch → JId → JId → Bool
  | [], _, _ => false
  | c :: cs, x, y => hasSisterPair c x y || hasSisterPairL cs x y
termination_by structural l => l

end

/-- The fixed 4-taxon example matrix of the claim. -/
def c4matrix : List (List ℚ) :=
  [[0, 5, 9, 9], [5, 0, 10, 10], [9, 10, 0, 8], [9, 10, 8, 0]]

def c4labels : List JId := [.str "A", .str "B", .str "C", .str "D"]

/-! ### The intermediate states of the run on `c4matrix`

Concrete test vectors: the state after the preamble, after each of the two
`while` iterations, and the returned tree.  (Each equals the result of the
corresponding step; the claim theorems prove exactly that.) -/

/-- Leaf `A` as built by the first join (`new Branch({id: "A", length: 2})`). -/
def njA : Branch := .node ⟨0, .str "A", 2, 1, 0, 0, 1, .undef⟩ []

def njB : Branch := .node ⟨1, .str "B", 3, 1, 0, 0, 1, .undef⟩ []

def njAB : Branch := .node ⟨2, .str "", 0, 1, 0, 0, 1, .undef⟩ [njA, njB]

def njC : Branch := .node ⟨3, .str "C", 4, 1, 0, 0, 1, .undef⟩ []

def njABC : Branch := .node ⟨4, .str "", 0, 1, 0, 0, 1, .undef⟩
  [.node ⟨2, .str "", 3, 1, 0, 0, 1, .undef⟩ [njA, njB], njC]

def c4st0 : NJState :=
  { N := 4, cN := 4
    D := c4matrix
    S := [[5, 9, 9], [5, 10, 10], [8, 9, 10], [8, 9, 10]]
    I := [[1, 2, 3], [0, 2, 3], [3, 0, 1], [2, 0, 1]]
    removedIndices := []
    indicesLeft := [0, 1, 2, 3]
    currIndexToLabel := [0, 1, 2, 3]
    labelToNode := [none, none, none, none, none, none, none, none]
    nextIndex := 4
    rowSums := [23, 25, 27, 27]
    rowSumMax := 27
    labels := c4labels
    guidCtr := 0 }

def c4st1 : NJState :=
  { N := 4, cN := 3
    D := [[-1, -1, -1, -1], [-1, 0, 7, 7], [-1, 7, 0, 8], [-1, 7, 8, 0]]
    S := [[], [7, 7], [8, 9, 10], [8, 9, 10]]
    I := [[], [2, 3], [3, 0, 1], [2, 0, 1]]
    removedIndices := [0]
    indicesLeft := [1, 2, 3]
    currIndexToLabel := [-1, 4, 2, 3]
    labelToNode := [some njA, some njB, none, none, some njAB, none, none,
      none]
    nextIndex := 5
    rowSums := [0, 14, 15, 15]
    rowSumMax := 20
    labels := c4labels
    guidCtr := 3 }

def c4st2 : NJState :=
  { N := 4, cN := 2
    D := [[-1, -1, -1, -1], [-1, -1, -1, -1], [-1, -1, 0, 4], [-1, -1, 4, 0]]
    S := [[], [], [4], [8, 9, 10]]
    I := [[], [], [3], [2, 0, 1]]
    removedIndices := [0, 1]
    indicesLeft := [2, 3]
    currIndexToLabel := [-1, -1, 5, 3]
    labelToNode := [some njA, some njB, some njC, none, some njAB, some njABC,
      none, none]
    nextIndex := 6
    rowSums := [0, 0, 4, 4]
    rowSumMax := 8
    labels := c4labels
    guidCtr := 5 }

/-- The tree `parseMatrix` returns on `c4matrix`:
`(((A:2,B:3):3,C:4):2,D:2)` — `A,B` are sisters but `C,D` are *not*: the
second join (a three-way tie in the Q-criterion, resolved by scan order)
joins the `AB` clade with `C`, not `C` with `D`. -/
def c4tree : Branch :=
  .node ⟨6, .str "", 0, 7, 0, 3, 1, .undef⟩
    [.node ⟨4, .str "", 2, 5, 1, 2, 1, .undef⟩
      [.node ⟨2, .str "", 3, 3, 2, 1, 1, .undef⟩
        [.node ⟨0, .str "A", 2, 1, 3, 0, 1, .undef⟩ [],
         .node ⟨1, .str "B", 3, 1, 3, 0, 1, .undef⟩ []],
       .node ⟨3, .str "C", 4, 1, 2, 1, 1, .undef⟩ []],
     .node ⟨5, .str "D", 2, 1, 1, 2, 1, .undef⟩ []]

/-! # Theorems -/

namespace Branch

/-! ## Path toolkit: composing paths, guid uniqueness -/

theorem nodeAt_append (a : Path) (t : Branch) (b : Path) :
    nodeAt t (a ++ b) = (nodeAt t a).bind (fun m => nodeAt m b) := by
  induction a generalizing t with
  | nil => simp [nodeAt]
  | cons i a ih =>
    cases t with
    | node f cs =>
      simp only [List.cons_append, nodeAt]
      cases h : cs[i]? with
      | none => simp
      | some c => simp [ih c]

theorem pathSum_append (a : Path) (m : Branch) (b : Path) : ∀ t : Branch,
    nodeAt t a = some m → pathSum t (a ++ b) = pathSum t a + pathSum m b := by
  induction a with
  | nil =>
    intro t h
    simp only [nodeAt, Option.some.injEq] at h
    subst h
    simp [pathSum]
  | cons i a ih =>
    intro t h
    cases t with
    | node f cs =>
      simp only [nodeAt] at h
      cases hc : cs[i]? with
      | none => simp [hc] at h
      | some c =>
        rw [hc] at h
        simp only [List.cons_append, pathSum, hc, List.append_eq]
        rw [ih c h]
        ring

theorem mem_allGuidsL_of_mem (c : Branch) (cs : List Branch) (hc : c ∈ cs)
    (g : ℕ) (hg : g ∈ allGuids c) : g ∈ allGuidsL cs := by
  induction cs with
  | nil => cases hc
  | cons d ds ih =>
    rw [allGuidsL, List.mem_append]
    rcases List.mem_cons.mp hc with h | h
    · exact Or.inl (h ▸ hg)
    · exact Or.inr (ih h)

theorem mem_allGuids_of_nodeAt (p : Path) (b : Branch) : ∀ t : Branch,
    nodeAt t p = some b → b.fields.guid ∈ allGuids t := by
  induction p with
  | nil =>
    intro t h
    simp only [nodeAt, Option.some.injEq] at h
    subst h
    cases t with
    | node f cs => simp [allGuids]
  | cons i p ih =>
    intro t h
    cases t with
    | node f cs =>
      simp only [nodeAt] at h
      cases hc : cs[i]? with
      | none => simp [hc] at h
      | some c =>
        rw [hc] at h
        rw [allGuids]
        exact List.mem_cons_of_mem _
          (mem_allGuidsL_of_mem c cs (List.getElem?_mem hc) _ (ih c h))

theorem nodup_allGuids_of_mem (c : Branch) (cs : List Branch) (hc : c ∈ cs)
    (hnd : (allGuidsL cs).Nodup) : (allGuids c).Nodup := by
  induction cs with
  | nil => cases hc
  | cons d ds ih =>
    rw [allGuidsL] at hnd
    rcases List.mem_cons.mp hc with h | h
    · exact h ▸ hnd.of_append_left
    · exact ih h hnd.of_append_right

theorem guids_disjoint (cs : List Branch) (i j : ℕ) (ci cj : Branch) (g : ℕ)
    (hij : i ≠ j) (hnd : (allGuidsL cs).Nodup)
    (hi : cs[i]? = some ci) (hj : cs[j]? = some cj)
    (hgi : g ∈ allGuids ci) (hgj : g ∈ allGuids cj) : False := by
  induction cs generalizing i j with
  | nil => simp at hi
  | cons d ds ih =>
    rw [allGuidsL] at hnd
    match i, j with
    | 0, 0 => exact hij rfl
    | 0, j + 1 =>
      simp only [List.getElem?_cons_zero, Option.some.injEq] at hi
      simp only [List.getElem?_cons_succ] at hj
      exact (List.disjoint_of_nodup_append hnd) (hi ▸ hgi)
        (mem_allGuidsL_of_mem cj ds (List.getElem?_mem hj) g hgj)
    | i + 1, 0 =>
      simp only [List.getElem?_cons_zero, Option.some.injEq] at hj
      simp only [List.getElem?_cons_succ] at hi
      exact (List.disjoint_of_nodup_append hnd) (hj ▸ hgj)
        (mem_allGuidsL_of_mem ci ds (List.getElem?_mem hi) g hgi)
    | i + 1, j + 1 =>
      simp only [List.getElem?_cons_succ] at hi hj
      exact ih i j (fun h => hij (by rw [h])) hnd.of_append_right hi hj

/-- Guid uniqueness: in a tree whose guid list has no duplicates, distinct
paths designate branches with distinct guids. -/
theorem guid_inj (p₁ : Path) (b₁ b₂ : Branch) : ∀ (t : Branch) (p₂ : Path),
    (allGuids t).Nodup → nodeAt t p₁ = some b₁ → nodeAt t p₂ = some b₂ →
    b₁.fields.guid = b₂.fields.guid → p₁ = p₂ := by
  induction p₁ with
  | nil =>
    intro t p₂ hnd h₁ h₂ hg
    cases p₂ with
    | nil => rfl
    | cons j p₂ =>
      exfalso
      simp only [nodeAt, Option.some.injEq] at h₁
      subst h₁
      cases t with
      | node f cs =>
        simp only [nodeAt] at h₂
        cases hc : cs[j]? with
        | none => simp [hc] at h₂
        | some c =>
          rw [hc] at h₂
          rw [allGuids] at hnd
          exact (List.nodup_cons.mp hnd).1 (hg ▸
            mem_allGuidsL_of_mem c cs (List.getElem?_mem hc) _
              (mem_allGuids_of_nodeAt p₂ b₂ c h₂))
  | cons i p₁ ih =>
    intro t p₂ hnd h₁ h₂ hg
    cases p₂ with
    | nil =>
      exfalso
      simp only [nodeAt, Option.some.injEq] at h₂
      subst h₂
      cases t with
      | node f cs =>
        simp only [nodeAt] at h₁
        cases hc : cs[i]? with
        | none => simp [hc] at h₁
        | some c =>
          rw [hc] at h₁
          rw [allGuids] at hnd
          exact (List.nodup_cons.mp hnd).1 (hg ▸
            mem_allGuidsL_of_mem c cs (List.getElem?_mem hc) _
              (mem_allGuids_of_nodeAt p₁ b₁ c h₁))
    | cons j p₂ =>
      cases t with
      | node f cs =>
        rw [allGuids] at hnd
        simp only [nodeAt] at h₁ h₂
        cases hci : cs[i]? with
        | none => simp [hci] at h₁
        | some ci =>
          cases hcj : cs[j]? with
          | none => simp [hcj] at h₂
          | some cj =>
            rw [hci] at h₁
            rw [hcj] at h₂
            by_cases hij : i = j
            · subst hij
              rw [hci] at hcj
              cases hcj
              have := ih ci p₂
                (nodup_allGuids_of_mem ci cs (List.getElem?_mem hci)
                  (List.nodup_cons.mp hnd).2) h₁ h₂ hg
              rw [this]
            · exfalso
              exact guids_disjoint cs i j ci cj b₁.fields.guid hij
                (List.nodup_cons.mp hnd).2 hci hcj
                (mem_allGuids_of_nodeAt p₁ b₁ ci h₁)
                (hg ▸ mem_allGuids_of_nodeAt p₂ b₂ cj h₂)

/-- The single-step path sum: entering child `i` adds that child's length. -/
theorem pathSum_single (m bd : Branch) (i : ℕ) (h : nodeAt m [i] = some bd) :
    pathSum m [i] = bd.fields.length := by
  cases m with
  | node f cs =>
    simp only [nodeAt] at h
    cases hc : cs[i]? with
    | none => simp [hc] at h
    | some c =>
      rw [hc] at h
      simp only [Option.some.injEq] at h
      subst h
      simp [pathSum, hc]

/-- The `depthOf` climb from a descendant path `pb ++ q` accumulates exactly
the lengths entered strictly below `pb` and stops at `pb` (guid uniqueness
pins the stop to the path itself). -/
theorem depthOfGo_of_pref (t : Branch) (hnd : (allGuids t).Nodup)
    (pb : Path) (bb : Branch) (hb : nodeAt t pb = some bb) (q : Path) :
    ∀ (bd : Branch), nodeAt t (pb ++ q) = some bd → ∀ acc : ℚ,
    depthOfGo t bb.fields.guid (pb ++ q) acc =
      .ok (acc + (pathSum t (pb ++ q) - pathSum t pb)) := by
  induction q using List.reverseRecOn with
  | nil =>
    intro bd hd acc
    rw [depthOfGo]
    simp only [List.append_nil] at hd ⊢
    rw [hd] at hb ⊢
    simp only [Option.some.injEq] at hb
    subst hb
    simp
  | append_singleton q i ih =>
    intro bd hd acc
    have hassoc : pb ++ (q ++ [i]) = (pb ++ q) ++ [i] := by
      rw [List.append_assoc]
    rw [hassoc] at hd ⊢
    have hsplit := (nodeAt_append (pb ++ q) t [i]).symm.trans hd
    cases hm : nodeAt t (pb ++ q) with
    | none => rw [hm] at hsplit; simp at hsplit
    | some m =>
      rw [hm] at hsplit
      simp only [Option.some_bind] at hsplit
      have hgne : bd.fields.guid ≠ bb.fields.guid := by
        intro hg
        have := guid_inj ((pb ++ q) ++ [i]) bd bb t pb hnd hd hb hg
        have hlen := congrArg List.length this
        simp only [List.length_append, List.length_singleton] at hlen
        omega
      rw [depthOfGo]
      simp only [hd, if_neg hgne]
      have hne : (pb ++ q) ++ [i] ≠ [] := by simp
      rw [dif_neg hne]
      have hdrop : ((pb ++ q) ++ [i]).dropLast = pb ++ q := by
        simp
      rw [hdrop, ih m hm (acc + bd.fields.length)]
      have hps : pathSum t ((pb ++ q) ++ [i]) =
          pathSum t (pb ++ q) + bd.fields.length := by
        rw [pathSum_append (pb ++ q) m [i] t hm, pathSum_single m bd i hsplit]
      rw [hps]
      ring_nf

/-- The `depthOf` climb from a branch that does not lie below `self` walks to
the root without meeting `self`'s guid and then dies on the null parent. -/
theorem depthOfGo_not_pref (t : Branch) (hnd : (allGuids t).Nodup)
    (pb : Path) (bb : Branch) (hb : nodeAt t pb = some bb) (pd : Path) :
    ∀ (bd : Branch), ¬ pb <+: pd → nodeAt t pd = some bd → ∀ acc : ℚ,
    depthOfGo t bb.fields.guid pd acc = .error .typeError := by
  induction pd using List.reverseRecOn with
  | nil =>
    intro bd hnp hd acc
    simp only [nodeAt, Option.some.injEq] at hd
    subst hd
    have hgne : t.fields.guid ≠ bb.fields.guid := by
      intro hg
      have := guid_inj [] t bb t pb hnd (by simp [nodeAt]) hb hg
      apply hnp
      rw [← this]
    rw [depthOfGo]
    simp [nodeAt, if_neg hgne]
  | append_singleton q i ih =>
    intro bd hnp hd acc
    have hsplit := (nodeAt_append q t [i]).symm.trans hd
    cases hm : nodeAt t q with
    | none => rw [hm] at hsplit; simp at hsplit
    | some m =>
      rw [hm] at hsplit
      simp only [Option.some_bind] at hsplit
      have hgne : bd.fields.guid ≠ bb.fields.guid := by
        intro hg
        have := guid_inj (q ++ [i]) bd bb t pb hnd hd hb hg
        apply hnp
        rw [← this]
      rw [depthOfGo]
      simp only [hd, if_neg hgne]
      have hne : q ++ [i] ≠ [] := by simp
      rw [dif_neg hne]
      have hdrop : (q ++ [i]).dropLast = q := by simp
      rw [hdrop]
      exact ih m (fun hp => hnp (hp.trans (List.prefix_append q [i]))) hm _

/-! ## `lcp` facts -/

theorem lcp_prefix_left : ∀ p q : List ℕ, lcp p q <+: p := by
  intro p
  induction p with
  | nil => intro q; cases q <;> simp [lcp]
  | cons i p ih =>
    intro q
    cases q with
    | nil => simp [lcp]
    | cons j q =>
      rw [lcp]
      by_cases h : i = j
      · rw [if_pos h]
        exact (List.cons_prefix_cons).mpr ⟨rfl, ih q⟩
      · rw [if_neg h]
        exact List.nil_prefix

theorem lcp_prefix_right : ∀ p q : List ℕ, lcp p q <+: q := by
  intro p
  induction p with
  | nil => intro q; cases q <;> simp [lcp]
  | cons i p ih =>
    intro q
    cases q with
    | nil => simp [lcp]
    | cons j q =>
      rw [lcp]
      by_cases h : i = j
      · rw [if_pos h]
        subst h
        exact (List.cons_prefix_cons).mpr ⟨rfl, ih q⟩
      · rw [if_neg h]
        exact List.nil_prefix

theorem prefix_lcp : ∀ r p q : List ℕ, r <+: p → r <+: q → r <+: lcp p q := by
  intro r
  induction r with
  | nil => intro p q _ _; exact List.nil_prefix
  | cons a r ih =>
    intro p q hp hq
    cases p with
    | nil => exact absurd hp (by simp)
    | cons i p =>
      cases q with
      | nil => exact absurd hq (by simp)
      | cons j q =>
        obtain ⟨hai, hrp⟩ := List.cons_prefix_cons.mp hp
        obtain ⟨haj, hrq⟩ := List.cons_prefix_cons.mp hq
        rw [lcp, if_pos (hai ▸ haj ▸ rfl : i = j)]
        exact List.cons_prefix_cons.mpr ⟨hai, ih p q hrp hrq⟩

theorem prefix_dropLast_of_proper {r p : List ℕ} (h : r <+: p) (hne : r ≠ p) :
    r <+: p.dropLast := by
  have hlt : r.length < p.length := by
    rcases Nat.lt_or_ge r.length p.length with h' | h'
    · exact h'
    · exact absurd (List.IsPrefix.eq_of_length_le h h') hne
  exact List.prefix_of_prefix_length_le h (List.dropLast_prefix p)
    (by simp [List.length_dropLast]; omega)

/-! ## Existence of a path for every guid -/

mutual

theorem exists_path_of_mem_allGuids (t : Branch) (g : ℕ) :
    g ∈ allGuids t → ∃ (p : Path) (b : Branch),
      nodeAt t p = some b ∧ b.fields.guid = g := by
  cases t with
  | node f cs =>
    intro hg
    rw [allGuids, List.mem_cons] at hg
    rcases hg with hg | hg
    · exact ⟨[], .node f cs, by simp [nodeAt], hg.symm⟩
    · obtain ⟨i, c, p, b, hc, hb, hgb⟩ := exists_path_of_mem_allGuidsL cs g hg
      exact ⟨i :: p, b, by simp [nodeAt, hc, hb], hgb⟩
termination_by structural t

theorem exists_path_of_mem_allGuidsL (cs : List Branch) (g : ℕ) :
    g ∈ allGuidsL cs → ∃ (i : ℕ) (c : Branch) (p : Path) (b : Branch),
      cs[i]? = some c ∧ nodeAt c p = some b ∧ b.fields.guid = g := by
  cases cs with
  | nil => intro hg; simp [allGuidsL] at hg
  | cons c cs =>
    intro hg
    rw [allGuidsL, List.mem_append] at hg
    rcases hg with hg | hg
    · obtain ⟨p, b, hb, hgb⟩ := exists_path_of_mem_allGuids c g hg
      exact ⟨0, c, p, b, by simp, hb, hgb⟩
    · obtain ⟨i, c', p, b, hc, hb, hgb⟩ := exists_path_of_mem_allGuidsL cs g hg
      exact ⟨i + 1, c', p, b, by simpa using hc, hb, hgb⟩
termination_by structural cs

end

/-! ## `hasDescendant` (strict) in terms of paths -/

theorem contains_iff_mem {l : List ℕ} {a : ℕ} : l.contains a = true ↔ a ∈ l := by
  simp [List.contains]

theorem prefix_antisymm {p q : List ℕ} (h₁ : p <+: q) (h₂ : q <+: p) : p = q :=
  h₁.eq_of_length (Nat.le_antisymm h₁.length_le h₂.length_le)

theorem nodeAt_isSome_of_pref (t : Branch) {p q : Path} (h : p <+: q)
    {b : Branch} (hq : nodeAt t q = some b) : ∃ m, nodeAt t p = some m := by
  obtain ⟨r, hr⟩ := h
  rw [← hr, nodeAt_append p t r] at hq
  cases hm : nodeAt t p with
  | none => rw [hm] at hq; simp at hq
  | some m => exact ⟨m, rfl⟩

/-- In a guid-unique tree, the strict descendants of the branch at `p`
contain the guid of the branch at `py` exactly when `p` is a proper prefix
of `py`. -/
theorem strictDesc_contains_iff (t : Branch) (hnd : (allGuids t).Nodup)
    (p py : Path) (m by' : Branch)
    (hm : nodeAt t p = some m) (hy : nodeAt t py = some by') :
    ((strictDescGuids m).contains by'.fields.guid = true) ↔ (p <+: py ∧ p ≠ py) := by
  constructor
  · intro hc
    rw [contains_iff_mem] at hc
    cases m with
    | node f cs =>
      rw [strictDescGuids] at hc
      obtain ⟨i, c, q, b, hcq, hb, hgb⟩ := exists_path_of_mem_allGuidsL cs _ hc
      have hfull : nodeAt t (p ++ i :: q) = some b := by
        rw [nodeAt_append p t (i :: q), hm]
        simp [nodeAt, hcq, hb]
      have hpq := guid_inj (p ++ i :: q) b by' t py hnd hfull hy hgb
      constructor
      · exact hpq ▸ List.prefix_append p (i :: q)
      · intro hpe
        rw [← hpe] at hpq
        have hlen := congrArg List.length hpq
        simp at hlen
  · rintro ⟨hpre, hne⟩
    obtain ⟨q, hq⟩ := hpre
    have hqne : q ≠ [] := by rintro rfl; rw [List.append_nil] at hq; exact hne hq
    cases q with
    | nil => exact absurd rfl hqne
    | cons i q' =>
      have hsplit := (nodeAt_append p t (i :: q')).symm.trans (hq ▸ hy)
      rw [hm] at hsplit
      simp only [Option.some_bind] at hsplit
      cases m with
      | node f cs =>
        simp only [nodeAt] at hsplit
        cases hcq : cs[i]? with
        | none => rw [hcq] at hsplit; simp at hsplit
        | some c =>
          rw [hcq] at hsplit
          rw [contains_iff_mem, strictDescGuids]
          exact mem_allGuidsL_of_mem c cs (List.getElem?_mem hcq) _
            (mem_allGuids_of_nodeAt q' by' c hsplit)

/-! ## The MRCA climb stops at the longest common prefix -/

theorem getMRCA_step (t : Branch) (p : Path) (gy : ℕ) (m : Branch)
    (hm : nodeAt t p = some m) :
    getMRCA t p gy =
      if (strictDescGuids m).contains gy then .ok p
      else if _h : p = [] then
        .error (.thrown "Branch and cousin do not appear to share a common ancestor!")
      else getMRCA t p.dropLast gy := by
  rw [getMRCA, hm]

theorem getMRCA_eq_lcp (t : Branch) (hnd : (allGuids t).Nodup)
    (px py : Path) (bx by' : Branch)
    (hx : nodeAt t px = some bx) (hy : nodeAt t py = some by')
    (hnotanc : ¬ py <+: px) :
    getMRCA t px by'.fields.guid = .ok (lcp px py) := by
  have hlx : lcp px py <+: px := lcp_prefix_left px py
  have hly : lcp px py <+: py := lcp_prefix_right px py
  have key : ∀ n (p : Path), p.length = n → lcp px py <+: p → p <+: px →
      getMRCA t p by'.fields.guid = .ok (lcp px py) := by
    intro n
    induction n using Nat.strong_induction_on with
    | _ n ih =>
      intro p hlen hl hp
      obtain ⟨m, hm⟩ := nodeAt_isSome_of_pref t hp hx
      by_cases heq : p = lcp px py
      · rw [getMRCA_step t p _ m hm]
        have hstop : (strictDescGuids m).contains by'.fields.guid = true := by
          rw [strictDesc_contains_iff t hnd p py m by' hm hy]
          constructor
          · rw [heq]; exact hly
          · intro hcontra
            rw [hcontra] at hp
            exact hnotanc hp
        rw [if_pos hstop, heq]
      · rw [getMRCA_step t p _ m hm]
        have hnostop : ¬ ((strictDescGuids m).contains by'.fields.guid = true) := by
          rw [strictDesc_contains_iff t hnd p py m by' hm hy]
          rintro ⟨hppy, -⟩
          exact heq (prefix_antisymm hl (prefix_lcp p px py hp hppy)).symm
        rw [if_neg hnostop]
        have hpne : p ≠ [] := by
          rintro rfl
          exact heq (prefix_antisymm List.nil_prefix hl)
        rw [dif_neg hpne]
        have hproper : lcp px py <+: p.dropLast :=
          prefix_dropLast_of_proper hl (fun h => heq h.symm)
        have hdp : p.dropLast <+: px :=
          (List.dropLast_prefix p).trans hp
        have hlt : p.dropLast.length < n := by
          rw [← hlen]
          simp only [List.length_dropLast]
          exact Nat.sub_lt (List.length_pos.mpr hpne) Nat.one_pos
        exact ih _ hlt p.dropLast rfl hproper hdp
  exact key px.length px rfl hlx List.prefix_rfl

/-- For any two branches such that the second is not an ancestor-or-self of
the first, `distanceTo` returns the patristic distance through the deepest
common ancestor. -/
theorem distanceTo_eq_distLcp (t : Branch) (hnd : (allGuids t).Nodup)
    (px py : Path) (bx by' : Branch)
    (hx : nodeAt t px = some bx) (hy : nodeAt t py = some by')
    (hnotanc : ¬ py <+: px) :
    distanceTo t px py = .ok (distLcp t px py) := by
  obtain ⟨ml, hml⟩ := nodeAt_isSome_of_pref t (lcp_prefix_left px py) hx
  obtain ⟨rx, hrx⟩ := lcp_prefix_left px py
  obtain ⟨ry, hry⟩ := lcp_prefix_right px py
  have hdx : depthOf t (lcp px py) px =
      .ok (pathSum t px - pathSum t (lcp px py)) := by
    unfold depthOf
    rw [guidAt, hml]
    simp only [Option.map_some']
    conv_lhs => rw [← hrx]
    rw [depthOfGo_of_pref t hnd (lcp px py) ml hml rx bx (by rw [hrx]; exact hx) 0]
    rw [hrx]
    ring_nf
  have hdy : depthOf t (lcp px py) py =
      .ok (pathSum t py - pathSum t (lcp px py)) := by
    unfold depthOf
    rw [guidAt, hml]
    simp only [Option.map_some']
    conv_lhs => rw [← hry]
    rw [depthOfGo_of_pref t hnd (lcp px py) ml hml ry by' (by rw [hry]; exact hy) 0]
    rw [hry]
    ring_nf
  unfold distanceTo
  rw [guidAt, hy]
  simp only [Option.map_some']
  simp only [getMRCA_eq_lcp t hnd px py bx by' hx hy hnotanc, hdx, hdy, distLcp]

/-! ## `modifyAt` preservation lemmas -/

theorem modifyIdx_getElem_eq (g : α → α) : ∀ (i : ℕ) (l : List α),
    (modifyIdx g i l)[i]? = l[i]?.map g := by
  intro i
  induction i with
  | zero => intro l; cases l <;> simp [modifyIdx]
  | succ n ih =>
    intro l
    cases l with
    | nil => simp [modifyIdx]
    | cons x xs => simpa [modifyIdx] using ih xs

theorem modifyIdx_getElem_ne (g : α → α) : ∀ (i j : ℕ) (l : List α), j ≠ i →
    (modifyIdx g i l)[j]? = l[j]? := by
  intro i
  induction i with
  | zero =>
    intro j l hj
    cases l with
    | nil => simp [modifyIdx]
    | cons x xs =>
      cases j with
      | zero => exact absurd rfl hj
      | succ m => simp [modifyIdx]
  | succ n ih =>
    intro j l hj
    cases l with
    | nil => simp [modifyIdx]
    | cons x xs =>
      cases j with
      | zero => simp [modifyIdx]
      | succ m => simpa [modifyIdx] using ih m xs (fun h => hj (by rw [h]))

theorem modifyAt_fields (fn : Branch → Branch) (f : BFields) (cs : List Branch)
    (i : ℕ) (p : Path) :
    (modifyAt fn (.node f cs) (i :: p)).fields = f := rfl

/-- The branch at the modified path is the image under `fn`. -/
theorem nodeAt_modifyAt_self (fn : Branch → Branch) : ∀ (p : Path) (t : Branch),
    nodeAt (modifyAt fn t p) p = (nodeAt t p).map fn := by
  intro p
  induction p with
  | nil => intro t; simp [modifyAt, nodeAt]
  | cons i p ih =>
    intro t
    cases t with
    | node f cs =>
      rw [modifyAt]
      show (match (modifyIdx (fun c => modifyAt fn c p) i cs)[i]? with
        | some c => nodeAt c p | none => none) = _
      rw [modifyIdx_getElem_eq]
      cases hc : cs[i]? with
      | none => simp [nodeAt, hc]
      | some c => simp only [Option.map_some', nodeAt, hc, ih c]

/-- Branches on paths that diverge from the modified path are untouched. -/
theorem modifyAt_diverge_nodeAt (fn : Branch → Branch) : ∀ (pp p : Path)
    (t : Branch), ¬ pp <+: p → ¬ p <+: pp →
    nodeAt (modifyAt fn t pp) p = nodeAt t p := by
  intro pp
  induction pp with
  | nil => intro p t h _; exact absurd List.nil_prefix h
  | cons k pp ih =>
    intro p t h hp
    cases p with
    | nil => exact absurd List.nil_prefix hp
    | cons j p' =>
      cases t with
      | node f cs =>
        rw [modifyAt]
        show (match (modifyIdx (fun c => modifyAt fn c pp) k cs)[j]? with
          | some c => nodeAt c p' | none => none) =
          (match cs[j]? with | some c => nodeAt c p' | none => none)
        by_cases hjk : j = k
        · subst hjk
          rw [modifyIdx_getElem_eq]
          cases hc : cs[j]? with
          | none => simp
          | some c =>
            simp only [Option.map_some']
            rw [ih p' c
              (fun hx => h (List.cons_prefix_cons.mpr ⟨rfl, hx⟩))
              (fun hx => hp (List.cons_prefix_cons.mpr ⟨rfl, hx⟩))]
        · rw [modifyIdx_getElem_ne _ _ _ _ hjk]

/-- Path sums along paths that diverge from the modified path are untouched
(any `fn`: only fields strictly inside the modified subtree change, and the
diverging path never enters it). -/
theorem modifyAt_diverge_pathSum (fn : Branch → Branch) : ∀ (pp p : Path)
    (t : Branch), ¬ pp <+: p → ¬ p <+: pp →
    pathSum (modifyAt fn t pp) p = pathSum t p := by
  intro pp
  induction pp with
  | nil => intro p t h _; exact absurd List.nil_prefix h
  | cons k pp ih =>
    intro p t h hp
    cases p with
    | nil => exact absurd List.nil_prefix hp
    | cons j p' =>
      cases t with
      | node f cs =>
        rw [modifyAt]
        show (match (modifyIdx (fun c => modifyAt fn c pp) k cs)[j]? with
          | some c => c.fields.length + pathSum c p' | none => 0) =
          (match cs[j]? with | some c => c.fields.length + pathSum c p' | none => 0)
        by_cases hjk : j = k
        · subst hjk
          rw [modifyIdx_getElem_eq]
          cases hc : cs[j]? with
          | none => simp
          | some c =>
            simp only [Option.map_some']
            have h1 : ¬ pp <+: p' := fun hx => h (List.cons_prefix_cons.mpr ⟨rfl, hx⟩)
            have h2 : ¬ p' <+: pp := fun hx => hp (List.cons_prefix_cons.mpr ⟨rfl, hx⟩)
            have hfe : (modifyAt fn c pp).fields = c.fields := by
              cases pp with
              | nil => exact absurd List.nil_prefix h1
              | cons a b =>
                cases c with
                | node cf ccs => rfl
            rw [hfe, ih p' c h1 h2]
        · rw [modifyIdx_getElem_ne _ _ _ _ hjk]

/-- Path sums along prefixes of the modified path are untouched, provided the
rewrite preserves the `length` field of the branch it rewrites. -/
theorem modifyAt_prefix_pathSum (fn : Branch → Branch)
    (hfl : ∀ m, (fn m).fields.length = m.fields.length) : ∀ (pp r : Path)
    (t : Branch), r <+: pp → pathSum (modifyAt fn t pp) r = pathSum t r := by
  intro pp
  induction pp with
  | nil =>
    intro r t hr
    rw [List.prefix_nil.mp hr]
    simp [pathSum]
  | cons k pp ih =>
    intro r t hr
    cases r with
    | nil => simp [pathSum]
    | cons j r' =>
      obtain ⟨hjk, hr'⟩ := List.cons_prefix_cons.mp hr
      subst hjk
      cases t with
      | node f cs =>
        rw [modifyAt]
        show (match (modifyIdx (fun c => modifyAt fn c pp) j cs)[j]? with
          | some c => c.fields.length + pathSum c r' | none => 0) =
          (match cs[j]? with | some c => c.fields.length + pathSum c r' | none => 0)
        rw [modifyIdx_getElem_eq]
        cases hc : cs[j]? with
        | none => simp
        | some c =>
          simp only [Option.map_some']
          have hfe : (modifyAt fn c pp).fields.length = c.fields.length := by
            cases hpp : pp with
            | nil => rw [modifyAt]; exact hfl c
            | cons a b =>
              cases c with
              | node cf ccs => rfl
          rw [hfe, ih r' c hr']

/-! ## More `lcp` facts -/

theorem lcp_comm : ∀ p q : List ℕ, lcp p q = lcp q p := by
  intro p
  induction p with
  | nil => intro q; cases q <;> rfl
  | cons i p ih =>
    intro q
    cases q with
    | nil => rfl
    | cons j q =>
      rw [lcp, lcp]
      by_cases h : i = j
      · subst h
        rw [if_pos rfl, if_pos rfl, ih q]
      · rw [if_neg h, if_neg (fun hx => h hx.symm)]

theorem lcp_append_left : ∀ (a b c : List ℕ),
    lcp (a ++ b) (a ++ c) = a ++ lcp b c := by
  intro a
  induction a with
  | nil => intro b c; rfl
  | cons x a ih =>
    intro b c
    rw [List.cons_append, List.cons_append, lcp, if_pos rfl, ih b c,
      List.cons_append]

theorem lcp_cons_ne (i j : ℕ) (p q : List ℕ) (h : i ≠ j) :
    lcp (i :: p) (j :: q) = [] := by
  rw [lcp, if_neg h]

/-- If `p` and `a` diverge (neither is a prefix of the other), the common
prefix of `p` with any extension of `a` is just its common prefix with `a`. -/
theorem lcp_diverge : ∀ (a p s : List ℕ), ¬ a <+: p → ¬ p <+: a →
    lcp p (a ++ s) = lcp p a := by
  intro a
  induction a with
  | nil => intro p s h _; exact absurd List.nil_prefix h
  | cons y a ih =>
    intro p s h hp
    cases p with
    | nil => exact absurd List.nil_prefix hp
    | cons x p' =>
      rw [List.cons_append, lcp, lcp]
      by_cases hxy : x = y
      · subst hxy
        rw [if_pos rfl, if_pos rfl,
          ih p' s (fun hx => h (List.cons_prefix_cons.mpr ⟨rfl, hx⟩))
            (fun hx => hp (List.cons_prefix_cons.mpr ⟨rfl, hx⟩))]
      · rw [if_neg hxy, if_neg hxy]

/-! ## `exciseMap` shape lemmas -/

theorem exciseMap_of_not_proper (pp : Path) (i : ℕ) (p : Path)
    (h : pp <+: p → p = pp) : exciseMap pp i p = p := by
  rw [exciseMap]
  by_cases hc : p.take pp.length = pp ∧ pp.length < p.length
  · exfalso
    have hpre : pp <+: p := hc.1 ▸ List.take_prefix pp.length p
    have := h hpre
    rw [this] at hc
    exact absurd hc.2 (by simp)
  · rw [if_neg hc]

theorem exciseMap_append (pp : Path) (i j : ℕ) (r : List ℕ) :
    exciseMap pp i (pp ++ j :: r) = pp ++ shiftIdx i j :: r := by
  rw [exciseMap]
  have h1 : (pp ++ j :: r).take pp.length = pp := List.take_left pp (j :: r)
  have h2 : pp.length < (pp ++ j :: r).length := by simp
  rw [if_pos ⟨h1, h2⟩]
  have h3 : (pp ++ j :: r).getD pp.length 0 = j := by
    rw [List.getD_eq_getElem?_getD, List.getElem?_append_right (Nat.le_refl _)]
    simp
  have h4 : (pp ++ j :: r).drop (pp.length + 1) = r := by
    rw [List.drop_append_eq_append_drop]
    simp
  rw [h3, h4]

/-! ## Leaf paths do not extend -/

theorem leaf_eq_of_pref (t : Branch) {py q : Path} (hl : isLeafAt t py)
    {m : Branch} (hq : nodeAt t q = some m) (hpre : py <+: q) : py = q := by
  obtain ⟨f, hf⟩ := hl
  obtain ⟨r, hr⟩ := hpre
  rw [← hr, nodeAt_append py t r, hf] at hq
  simp only [Option.some_bind] at hq
  cases r with
  | nil => rw [← hr]; simp
  | cons x r' => simp [nodeAt] at hq

/-! ## Size bookkeeping for `excise` -/

theorem sizeL_append : ∀ l₁ l₂ : List Branch,
    sizeL (l₁ ++ l₂) = sizeL l₁ + sizeL l₂ := by
  intro l₁ l₂
  induction l₁ with
  | nil => simp [sizeL]
  | cons c cs ih => rw [List.cons_append, sizeL, sizeL, ih]; ring

theorem size_addLength (q : ℚ) (c : Branch) : size (addLength q c) = size c := by
  cases c with
  | node f cs => rfl

theorem sizeL_map_addLength (q : ℚ) : ∀ l : List Branch,
    sizeL (l.map (addLength q)) = sizeL l := by
  intro l
  induction l with
  | nil => rfl
  | cons c cs ih => rw [List.map_cons, sizeL, sizeL, ih, size_addLength]

theorem sizeL_eraseIdx : ∀ (cs : List Branch) (i : ℕ) (b : Branch),
    cs[i]? = some b → sizeL (cs.eraseIdx i) + size b = sizeL cs := by
  intro cs
  induction cs with
  | nil => intro i b h; simp at h
  | cons c cs ih =>
    intro i b h
    cases i with
    | zero =>
      simp only [List.getElem?_cons_zero, Option.some.injEq] at h
      subst h
      rw [List.eraseIdx_cons_zero, sizeL]
      ring
    | succ n =>
      simp only [List.getElem?_cons_succ] at h
      rw [List.eraseIdx_cons_succ, sizeL, sizeL, ← ih n b h]
      ring

theorem size_exciseChild (f : BFields) (cs : List Branch) (i : ℕ) (b : Branch)
    (h : cs[i]? = some b) :
    size (exciseChild i (.node f cs)) + 1 = size (.node f cs) := by
  rw [exciseChild]
  cases b with
  | node bf bcs =>
    rw [h]
    have hb := sizeL_eraseIdx cs i _ h
    rw [size] at hb
    show 1 + sizeL (cs.eraseIdx i ++ bcs.map (addLength bf.length)) + 1 =
      1 + sizeL cs
    rw [sizeL_append, sizeL_map_addLength]
    omega

theorem size_modifyAt (fn : Branch → Branch) : ∀ (pp : Path) (t m : Branch),
    nodeAt t pp = some m → size (fn m) + 1 = size m →
    size (modifyAt fn t pp) + 1 = size t := by
  intro pp
  induction pp with
  | nil =>
    intro t m hm hs
    simp only [nodeAt, Option.some.injEq] at hm
    subst hm
    cases t with
    | node f cs => exact hs
  | cons k pp ih =>
    intro t m hm hs
    cases t with
    | node f cs =>
      simp only [nodeAt] at hm
      cases hc : cs[k]? with
      | none => rw [hc] at hm; simp at hm
      | some c =>
        rw [hc] at hm
        rw [modifyAt, size, size]
        have key : ∀ (l : List Branch) (k : ℕ), l[k]? = some c →
            sizeL (modifyIdx (fun x => modifyAt fn x pp) k l) + 1 = sizeL l := by
          intro l
          induction l with
          | nil => intro k h; simp at h
          | cons d ds ihl =>
            intro k h
            cases k with
            | zero =>
              simp only [List.getElem?_cons_zero, Option.some.injEq] at h
              subst h
              rw [modifyIdx, sizeL, sizeL]
              have h2 := ih d m hm hs
              omega
            | succ n =>
              simp only [List.getElem?_cons_succ] at h
              rw [modifyIdx, sizeL, sizeL]
              have h2 := ihl n h
              omega
        have h3 := key cs k hc
        omega

/-! ## Guids under `excise`: a sub-permutation, so uniqueness is preserved -/

theorem subperm_cons_cons {a : ℕ} {l₁ l₂ : List ℕ} (h : List.Subperm l₁ l₂) :
    List.Subperm (a :: l₁) (a :: l₂) := by
  obtain ⟨l, hp, hs⟩ := h
  exact ⟨a :: l, hp.cons a, hs.cons₂ a⟩

theorem subperm_append_left' (r : List ℕ) {l₁ l₂ : List ℕ}
    (h : List.Subperm l₁ l₂) : List.Subperm (r ++ l₁) (r ++ l₂) := by
  induction r with
  | nil => exact h
  | cons a r ih => exact subperm_cons_cons ih

theorem subperm_append_right' (r : List ℕ) {l₁ l₂ : List ℕ}
    (h : List.Subperm l₁ l₂) : List.Subperm (l₁ ++ r) (l₂ ++ r) := by
  obtain ⟨l, hp, hs⟩ := h
  exact ⟨l ++ r, hp.append_right r, hs.append_right r⟩

theorem subperm_nodup {l₁ l₂ : List ℕ} (h : List.Subperm l₁ l₂)
    (h₂ : l₂.Nodup) : l₁.Nodup := by
  obtain ⟨l, hp, hs⟩ := h
  exact (hs.nodup h₂).perm hp

theorem allGuidsL_append : ∀ l₁ l₂ : List Branch,
    allGuidsL (l₁ ++ l₂) = allGuidsL l₁ ++ allGuidsL l₂ := by
  intro l₁ l₂
  induction l₁ with
  | nil => rfl
  | cons c cs ih => rw [List.cons_append, allGuidsL, allGuidsL, ih, List.append_assoc]

theorem allGuids_addLength (q : ℚ) (c : Branch) :
    allGuids (addLength q c) = allGuids c := by
  cases c with
  | node f cs => rfl

theorem allGuidsL_map_addLength (q : ℚ) : ∀ l : List Branch,
    allGuidsL (l.map (addLength q)) = allGuidsL l := by
  intro l
  induction l with
  | nil => rfl
  | cons c cs ih => rw [List.map_cons, allGuidsL, allGuidsL, ih, allGuids_addLength]

theorem allGuids_exciseChild_subperm (f : BFields) (cs : List Branch) (i : ℕ)
    (b : Branch) (h : cs[i]? = some b) :
    List.Subperm (allGuids (exciseChild i (.node f cs)))
      (allGuids (.node f cs)) := by
  rw [exciseChild]
  cases b with
  | node bf bcs =>
    rw [h]
    show List.Subperm
      (f.guid :: allGuidsL (cs.eraseIdx i ++ bcs.map (addLength bf.length)))
      (f.guid :: allGuidsL cs)
    apply subperm_cons_cons
    rw [allGuidsL_append, allGuidsL_map_addLength]
    have hi : i < cs.length := by
      by_contra hlen
      rw [List.getElem?_eq_none (Nat.le_of_not_lt hlen)] at h
      cases h
    have hb : cs[i] = Branch.node bf bcs := by
      have h2 := List.getElem?_eq_getElem hi
      rw [h2] at h
      exact Option.some.inj h
    have hcs : cs = cs.take i ++ cs[i] :: cs.drop (i + 1) := by
      conv_lhs => rw [← List.take_append_drop i cs]
      rw [List.drop_eq_getElem_cons hi]
    have hrhs : allGuidsL cs =
        allGuidsL (cs.take i) ++ (bf.guid :: allGuidsL bcs) ++
          allGuidsL (cs.drop (i + 1)) := by
      conv_lhs => rw [hcs]
      rw [allGuidsL_append, hb, allGuidsL, allGuids, ← List.append_assoc]
    rw [List.eraseIdx_eq_take_drop_succ, allGuidsL_append, hrhs]
    refine ⟨allGuidsL (cs.take i) ++
      (allGuidsL bcs ++ allGuidsL (cs.drop (i + 1))), ?_, ?_⟩
    · have h2 := (@List.perm_append_comm ℕ (allGuidsL bcs)
        (allGuidsL (cs.drop (i + 1)))).append_left (allGuidsL (cs.take i))
      refine h2.trans ?_
      rw [List.append_assoc]
    · rw [List.append_assoc]
      exact List.Sublist.append_left
        (List.Sublist.append_right (List.sublist_cons_self _ _) _) _

theorem allGuids_modifyAt_subperm (fn : Branch → Branch) : ∀ (pp : Path)
    (t m : Branch), nodeAt t pp = some m →
    List.Subperm (allGuids (fn m)) (allGuids m) →
    List.Subperm (allGuids (modifyAt fn t pp)) (allGuids t) := by
  intro pp
  induction pp with
  | nil =>
    intro t m hm hs
    simp only [nodeAt, Option.some.injEq] at hm
    subst hm
    cases t with
    | node f cs => exact hs
  | cons k pp ih =>
    intro t m hm hs
    cases t with
    | node f cs =>
      simp only [nodeAt] at hm
      cases hc : cs[k]? with
      | none => rw [hc] at hm; simp at hm
      | some c =>
        rw [hc] at hm
        rw [modifyAt, allGuids, allGuids]
        apply subperm_cons_cons
        have key : ∀ (l : List Branch) (k : ℕ), l[k]? = some c →
            List.Subperm (allGuidsL (modifyIdx (fun x => modifyAt fn x pp) k l))
              (allGuidsL l) := by
          intro l
          induction l with
          | nil => intro k h; simp at h
          | cons d ds ihl =>
            intro k h
            cases k with
            | zero =>
              simp only [List.getElem?_cons_zero, Option.some.injEq] at h
              subst h
              rw [modifyIdx, allGuidsL, allGuidsL]
              exact subperm_append_right' _ (ih d m hm hs)
            | succ n =>
              simp only [List.getElem?_cons_succ] at h
              rw [modifyIdx, allGuidsL, allGuidsL]
              exact subperm_append_left' _ (ihl n h)
        exact key cs k hc

/-! ## Shape lemmas for paths surviving an `excise` -/

theorem exciseChild_length (i : ℕ) (m : Branch) :
    (exciseChild i m).fields.length = m.fields.length := by
  cases m with
  | node f cs =>
    rw [exciseChild]
    cases hc : cs[i]? with
    | none => rfl
    | some b => rfl

theorem shiftIdx_inj (i j₁ j₂ : ℕ) (h₁ : j₁ ≠ i) (h₂ : j₂ ≠ i) (h : j₁ ≠ j₂) :
    shiftIdx i j₁ ≠ shiftIdx i j₂ := by
  unfold shiftIdx
  split <;> split <;> omega

theorem getElem?_eraseIdx_shiftIdx (cs : List Branch) (i j : ℕ) (hj : j ≠ i) :
    (cs.eraseIdx i)[shiftIdx i j]? = cs[j]? := by
  rw [List.getElem?_eraseIdx, shiftIdx]
  by_cases h : j < i
  · rw [if_pos h, if_pos h]
  · rw [if_neg h, if_neg (by omega)]
    congr 1
    omega

/-- `excise` is a `modifyAt`; the path of the whole tree is unchanged. -/
theorem excise_eq_modifyAt (t : Branch) (pp : Path) (i : ℕ) :
    excise t pp i = modifyAt (exciseChild i) t pp := rfl

/-- The parent of the excised branch, seen in the new tree. -/
theorem nodeAt_excise_self (t : Branch) (pp : Path) (i : ℕ) (m : Branch)
    (hm : nodeAt t pp = some m) :
    nodeAt (excise t pp i) pp = some (exciseChild i m) := by
  rw [excise_eq_modifyAt, nodeAt_modifyAt_self, hm, Option.map_some']

/-- Path sums are unchanged on any path that does not go below the excised
branch's parent (prefixes of the parent path and diverging paths). -/
theorem pathSum_excise_outside (t : Branch) (pp : Path) (i : ℕ) (z : Path)
    (h : ¬ pp <+: z) : pathSum (excise t pp i) z = pathSum t z := by
  rw [excise_eq_modifyAt]
  by_cases hz : z <+: pp
  · exact modifyAt_prefix_pathSum (exciseChild i) (exciseChild_length i) pp z t hz
  · exact modifyAt_diverge_pathSum (exciseChild i) pp z t h hz

theorem pathSum_excise_pref (t : Branch) (pp : Path) (i : ℕ) (z : Path)
    (h : z <+: pp) : pathSum (excise t pp i) z = pathSum t z := by
  rw [excise_eq_modifyAt]
  exact modifyAt_prefix_pathSum (exciseChild i) (exciseChild_length i) pp z t h

/-- Branches reached through a sibling (child `j ≠ i` of the parent) survive
with the sibling's index shifted by the splice. -/
theorem nodeAt_excise_sibling (t : Branch) (pp : Path) (i : ℕ) (m b : Branch)
    (hm : nodeAt t pp = some m) (hbi : m.children[i]? = some b)
    (j : ℕ) (hj : j ≠ i) (cj : Branch) (hcj : m.children[j]? = some cj)
    (r : Path) :
    nodeAt (excise t pp i) (pp ++ shiftIdx i j :: r) = nodeAt t (pp ++ j :: r) := by
  rw [nodeAt_append, nodeAt_excise_self t pp i m hm, Option.some_bind,
    nodeAt_append, hm, Option.some_bind]
  cases m with
  | node f cs =>
    rw [children_node] at hbi hcj
    have hi : i < cs.length := by
      by_contra hlen
      rw [List.getElem?_eq_none (Nat.le_of_not_lt hlen)] at hbi
      cases hbi
    have hjlt : j < cs.length := by
      by_contra hlen
      rw [List.getElem?_eq_none (Nat.le_of_not_lt hlen)] at hcj
      cases hcj
    have hlen : shiftIdx i j < (cs.eraseIdx i).length := by
      rw [List.length_eraseIdx_of_lt hi]
      unfold shiftIdx
      split <;> omega
    rw [exciseChild, hbi]
    cases b with
    | node bf bcs =>
      show (match (cs.eraseIdx i ++ bcs.map (addLength bf.length))[shiftIdx i j]? with
        | some c => nodeAt c r | none => none) =
        (match cs[j]? with | some c => nodeAt c r | none => none)
      rw [List.getElem?_append, if_pos hlen, getElem?_eraseIdx_shiftIdx cs i j hj]

theorem pathSum_excise_sibling (t : Branch) (pp : Path) (i : ℕ) (m b : Branch)
    (hm : nodeAt t pp = some m) (hbi : m.children[i]? = some b)
    (j : ℕ) (hj : j ≠ i) (cj : Branch) (hcj : m.children[j]? = some cj)
    (r : Path) :
    pathSum (excise t pp i) (pp ++ shiftIdx i j :: r) = pathSum t (pp ++ j :: r) := by
  rw [pathSum_append pp (exciseChild i m) (shiftIdx i j :: r) (excise t pp i)
      (nodeAt_excise_self t pp i m hm),
    pathSum_append pp m (j :: r) t hm,
    pathSum_excise_pref t pp i pp List.prefix_rfl]
  congr 1
  cases m with
  | node f cs =>
    rw [children_node] at hbi hcj
    have hi : i < cs.length := by
      by_contra hlen
      rw [List.getElem?_eq_none (Nat.le_of_not_lt hlen)] at hbi
      cases hbi
    have hjlt : j < cs.length := by
      by_contra hlen
      rw [List.getElem?_eq_none (Nat.le_of_not_lt hlen)] at hcj
      cases hcj
    have hlen : shiftIdx i j < (cs.eraseIdx i).length := by
      rw [List.length_eraseIdx_of_lt hi]
      unfold shiftIdx
      split <;> omega
    rw [exciseChild, hbi]
    cases b with
    | node bf bcs =>
      show (match (cs.eraseIdx i ++ bcs.map (addLength bf.length))[shiftIdx i j]? with
        | some c => c.fields.length + pathSum c r | none => 0) =
        (match cs[j]? with | some c => c.fields.length + pathSum c r | none => 0)
      rw [List.getElem?_append, if_pos hlen, getElem?_eraseIdx_shiftIdx cs i j hj]

/-- A leaf path that avoids the excised branch's subtree either diverges from
the parent path or passes through a sibling child. -/
theorem excise_leaf_shape (t : Branch) (pp : Path) (i : ℕ) (m b : Branch)
    (hm : nodeAt t pp = some m) (hbi : m.children[i]? = some b)
    (z : Path) (fz : BFields) (hfz : nodeAt t z = some (.node fz []))
    (hnz : ¬ (pp ++ [i]) <+: z) :
    (¬ pp <+: z ∧ ¬ z <+: pp) ∨
      (∃ j r cj, j ≠ i ∧ z = pp ++ j :: r ∧ m.children[j]? = some cj) := by
  by_cases hppz : pp <+: z
  · right
    obtain ⟨s, hs⟩ := hppz
    cases s with
    | nil =>
      exfalso
      rw [List.append_nil] at hs
      rw [hs, hfz] at hm
      cases hm
      simp at hbi
    | cons j r =>
      refine ⟨j, r, ?_⟩
      have hji : j ≠ i := by
        rintro rfl
        exact hnz ⟨r, by rw [List.append_assoc]; exact hs⟩
      have hz : z = pp ++ j :: r := hs.symm
      have hnode := hfz
      rw [hz, nodeAt_append, hm, Option.some_bind] at hnode
      cases m with
      | node f cs =>
        simp only [nodeAt] at hnode
        cases hcj : cs[j]? with
        | none => rw [hcj] at hnode; simp at hnode
        | some cj =>
          rw [hcj] at hnode
          exact ⟨cj, hji, hz, hcj⟩
  · left
    refine ⟨hppz, ?_⟩
    intro hzpp
    exact hppz ((leaf_eq_of_pref t ⟨fz, hfz⟩ hm hzpp) ▸ List.prefix_rfl)

/-- The heart of the `excise` distance-preservation claim: path sums of the
two surviving leaves and of their meet are unchanged. -/
theorem excise_preserves_sums (t : Branch) (pp : Path) (i : ℕ) (m b : Branch)
    (hm : nodeAt t pp = some m) (hbi : m.children[i]? = some b)
    (px py : Path) (fx fy : BFields)
    (hfx : nodeAt t px = some (.node fx [])) (hfy : nodeAt t py = some (.node fy []))
    (hnx : ¬ (pp ++ [i]) <+: px) (hny : ¬ (pp ++ [i]) <+: py) :
    nodeAt (excise t pp i) (exciseMap pp i px) = nodeAt t px ∧
      nodeAt (excise t pp i) (exciseMap pp i py) = nodeAt t py ∧
      pathSum (excise t pp i) (exciseMap pp i px) = pathSum t px ∧
      pathSum (excise t pp i) (exciseMap pp i py) = pathSum t py ∧
      pathSum (excise t pp i) (lcp (exciseMap pp i px) (exciseMap pp i py)) =
        pathSum t (lcp px py) := by
  rcases excise_leaf_shape t pp i m b hm hbi px fx hfx hnx with
    ⟨hdx1, hdx2⟩ | ⟨jx, rx, cjx, hjx, hzx, hcjx⟩
  · -- px diverges from pp
    have hmapx : exciseMap pp i px = px :=
      exciseMap_of_not_proper pp i px (fun hc => absurd hc hdx1)
    have hnodex : nodeAt (excise t pp i) px = nodeAt t px := by
      rw [excise_eq_modifyAt]
      exact modifyAt_diverge_nodeAt _ pp px t hdx1 hdx2
    have hpsx : pathSum (excise t pp i) px = pathSum t px :=
      pathSum_excise_outside t pp i px hdx1
    rcases excise_leaf_shape t pp i m b hm hbi py fy hfy hny with
      ⟨hdy1, hdy2⟩ | ⟨jy, ry, cjy, hjy, hzy, hcjy⟩
    · -- py diverges too
      have hmapy : exciseMap pp i py = py :=
        exciseMap_of_not_proper pp i py (fun hc => absurd hc hdy1)
      have hnodey : nodeAt (excise t pp i) py = nodeAt t py := by
        rw [excise_eq_modifyAt]
        exact modifyAt_diverge_nodeAt _ pp py t hdy1 hdy2
      have hpsy : pathSum (excise t pp i) py = pathSum t py :=
        pathSum_excise_outside t pp i py hdy1
      refine ⟨by rw [hmapx]; exact hnodex, by rw [hmapy]; exact hnodey,
        by rw [hmapx]; exact hpsx, by rw [hmapy]; exact hpsy, ?_⟩
      rw [hmapx, hmapy]
      apply pathSum_excise_outside
      intro hc
      exact hdx1 (hc.trans (lcp_prefix_left px py))
    · -- py through sibling jy
      have hmapy : exciseMap pp i py = pp ++ shiftIdx i jy :: ry := by
        rw [hzy]; exact exciseMap_append pp i jy ry
      have hnodey : nodeAt (excise t pp i) (exciseMap pp i py) = nodeAt t py := by
        rw [hmapy, hzy]
        exact nodeAt_excise_sibling t pp i m b hm hbi jy hjy cjy hcjy ry
      have hpsy : pathSum (excise t pp i) (exciseMap pp i py) = pathSum t py := by
        rw [hmapy, hzy]
        exact pathSum_excise_sibling t pp i m b hm hbi jy hjy cjy hcjy ry
      refine ⟨by rw [hmapx]; exact hnodex, hnodey,
        by rw [hmapx]; exact hpsx, hpsy, ?_⟩
      have hL : lcp px py = lcp px pp := by
        rw [hzy]; exact lcp_diverge pp px (jy :: ry) hdx1 hdx2
      have hL' : lcp (exciseMap pp i px) (exciseMap pp i py) = lcp px pp := by
        rw [hmapx, hmapy]; exact lcp_diverge pp px (shiftIdx i jy :: ry) hdx1 hdx2
      rw [hL, hL']
      apply pathSum_excise_outside
      intro hc
      exact hdx1 (hc.trans (lcp_prefix_left px pp))
  · -- px through sibling jx
    have hmapx : exciseMap pp i px = pp ++ shiftIdx i jx :: rx := by
      rw [hzx]; exact exciseMap_append pp i jx rx
    have hnodex : nodeAt (excise t pp i) (exciseMap pp i px) = nodeAt t px := by
      rw [hmapx, hzx]
      exact nodeAt_excise_sibling t pp i m b hm hbi jx hjx cjx hcjx rx
    have hpsx : pathSum (excise t pp i) (exciseMap pp i px) = pathSum t px := by
      rw [hmapx, hzx]
      exact pathSum_excise_sibling t pp i m b hm hbi jx hjx cjx hcjx rx
    rcases excise_leaf_shape t pp i m b hm hbi py fy hfy hny with
      ⟨hdy1, hdy2⟩ | ⟨jy, ry, cjy, hjy, hzy, hcjy⟩
    · -- py diverges
      have hmapy : exciseMap pp i py = py :=
        exciseMap_of_not_proper pp i py (fun hc => absurd hc hdy1)
      have hnodey : nodeAt (excise t pp i) py = nodeAt t py := by
        rw [excise_eq_modifyAt]
        exact modifyAt_diverge_nodeAt _ pp py t hdy1 hdy2
      have hpsy : pathSum (excise t pp i) py = pathSum t py :=
        pathSum_excise_outside t pp i py hdy1
      refine ⟨hnodex, by rw [hmapy]; exact hnodey, hpsx,
        by rw [hmapy]; exact hpsy, ?_⟩
      have hL : lcp px py = lcp py pp := by
        rw [lcp_comm, hzx]; exact lcp_diverge pp py (jx :: rx) hdy1 hdy2
      have hL' : lcp (exciseMap pp i px) (exciseMap pp i py) = lcp py pp := by
        rw [lcp_comm, hmapx, hmapy]
        exact lcp_diverge pp py (shiftIdx i jx :: rx) hdy1 hdy2
      rw [hL, hL']
      apply pathSum_excise_outside
      intro hc
      exact hdy1 (hc.trans (lcp_prefix_left py pp))
    · -- py through sibling jy
      have hmapy : exciseMap pp i py = pp ++ shiftIdx i jy :: ry := by
        rw [hzy]; exact exciseMap_append pp i jy ry
      have hnodey : nodeAt (excise t pp i) (exciseMap pp i py) = nodeAt t py := by
        rw [hmapy, hzy]
        exact nodeAt_excise_sibling t pp i m b hm hbi jy hjy cjy hcjy ry
      have hpsy : pathSum (excise t pp i) (exciseMap pp i py) = pathSum t py := by
        rw [hmapy, hzy]
        exact pathSum_excise_sibling t pp i m b hm hbi jy hjy cjy hcjy ry
      refine ⟨hnodex, hnodey, hpsx, hpsy, ?_⟩
      by_cases hjxy : jx = jy
      · subst hjxy
        have hL : lcp px py = pp ++ jx :: lcp rx ry := by
          rw [hzx, hzy, lcp_append_left, lcp, if_pos rfl]
        have hL' : lcp (exciseMap pp i px) (exciseMap pp i py) =
            pp ++ shiftIdx i jx :: lcp rx ry := by
          rw [hmapx, hmapy, lcp_append_left, lcp, if_pos rfl]
        rw [hL, hL']
        exact pathSum_excise_sibling t pp i m b hm hbi jx hjx cjx hcjx (lcp rx ry)
      · have hL : lcp px py = pp := by
          rw [hzx, hzy, lcp_append_left, lcp_cons_ne _ _ _ _ hjxy, List.append_nil]
        have hL' : lcp (exciseMap pp i px) (exciseMap pp i py) = pp := by
          rw [hmapx, hmapy, lcp_append_left,
            lcp_cons_ne _ _ _ _ (shiftIdx_inj i jx jy hjx hjy hjxy), List.append_nil]
        rw [hL, hL']
        exact pathSum_excise_pref t pp i pp List.prefix_rfl

/-! ## Shape lemmas for a single root inversion (the step of `reroot`) -/

theorem invertRoot_eq (f : BFields) (cs : List Branch) (i : ℕ) (cf : BFields)
    (ccs : List Branch) (hci : cs[i]? = some (.node cf ccs)) :
    invertRoot i (.node f cs) =
      .node { cf with length := f.length }
        (ccs ++ [.node { f with length := cf.length } (cs.eraseIdx i)]) := by
  rw [invertRoot, hci]

theorem getElem?_append_left {α : Type} (l₁ l₂ : List α) (k : ℕ)
    (hk : k < l₁.length) : (l₁ ++ l₂)[k]? = l₁[k]? := by
  rw [List.getElem?_append, if_pos hk]

/-- A path into the inverted child (index `k` valid there) reaches, in the
inverted tree, exactly the branch it reached under the old `i :: ·` path. -/
theorem nodeAt_invertRoot_inside (f : BFields) (cs : List Branch) (i : ℕ)
    (cf : BFields) (ccs : List Branch) (hci : cs[i]? = some (.node cf ccs))
    (k : ℕ) (hk : k < ccs.length) (r : Path) :
    nodeAt (invertRoot i (.node f cs)) (k :: r) =
      nodeAt (.node f cs) (i :: k :: r) := by
  rw [invertRoot_eq f cs i cf ccs hci]
  simp only [nodeAt, hci]
  rw [getElem?_append_left _ _ k hk]

/-- Path sums inside the inverted child lose exactly the old edge `cf.length`
(entering the child is no longer a step). -/
theorem pathSum_invertRoot_inside (f : BFields) (cs : List Branch) (i : ℕ)
    (cf : BFields) (ccs : List Branch) (hci : cs[i]? = some (.node cf ccs))
    (z : Path) (hz : z = [] ∨ ∃ k r, z = k :: r ∧ k < ccs.length) :
    pathSum (invertRoot i (.node f cs)) z + cf.length =
      pathSum (.node f cs) (i :: z) := by
  rw [invertRoot_eq f cs i cf ccs hci]
  rcases hz with rfl | ⟨k, r, rfl, hk⟩
  · simp only [pathSum, hci, fields_node]
    ring
  · simp only [pathSum, hci, fields_node]
    rw [getElem?_append_left _ _ k hk]
    cases hck : ccs[k]? with
    | none => ring
    | some ck => ring

/-- A path through another child `j ≠ i` of the old root survives as
`M :: shiftIdx i j :: ·` (through the appended old root). -/
theorem nodeAt_invertRoot_sibling (f : BFields) (cs : List Branch) (i : ℕ)
    (cf : BFields) (ccs : List Branch) (hci : cs[i]? = some (.node cf ccs))
    (j : ℕ) (hj : j ≠ i) (r : Path) :
    nodeAt (invertRoot i (.node f cs)) (ccs.length :: shiftIdx i j :: r) =
      nodeAt (.node f cs) (j :: r) := by
  rw [invertRoot_eq f cs i cf ccs hci]
  simp only [nodeAt, List.getElem?_concat_length,
    getElem?_eraseIdx_shiftIdx cs i j hj]

/-- Path sums through a sibling child gain exactly the swapped-in edge
`cf.length` of the appended old root. -/
theorem pathSum_invertRoot_sibling (f : BFields) (cs : List Branch) (i : ℕ)
    (cf : BFields) (ccs : List Branch) (hci : cs[i]? = some (.node cf ccs))
    (j : ℕ) (hj : j ≠ i) (r : Path) :
    pathSum (invertRoot i (.node f cs)) (ccs.length :: shiftIdx i j :: r) =
      cf.length + pathSum (.node f cs) (j :: r) := by
  rw [invertRoot_eq f cs i cf ccs hci]
  simp only [pathSum, List.getElem?_concat_length, fields_node,
    getElem?_eraseIdx_shiftIdx cs i j hj]

/-- The appended old root sits at `[M]` and carries the swapped edge length. -/
theorem pathSum_invertRoot_oldRoot (f : BFields) (cs : List Branch) (i : ℕ)
    (cf : BFields) (ccs : List Branch) (hci : cs[i]? = some (.node cf ccs)) :
    pathSum (invertRoot i (.node f cs)) [ccs.length] = cf.length := by
  rw [invertRoot_eq f cs i cf ccs hci]
  simp only [pathSum, List.getElem?_concat_length, fields_node]
  ring

/-- A root inversion permutes the guid list (no branch is created or lost),
so guid uniqueness is preserved. -/
theorem allGuids_invertRoot_perm (f : BFields) (cs : List Branch) (i : ℕ)
    (cf : BFields) (ccs : List Branch) (hci : cs[i]? = some (.node cf ccs)) :
    List.Perm (allGuids (invertRoot i (.node f cs)))
      (allGuids (.node f cs)) := by
  have hilt : i < cs.length := (List.getElem?_eq_some.mp hci).1
  have hdecomp : cs = cs.take i ++ Branch.node cf ccs :: cs.drop (i + 1) := by
    conv_lhs => rw [← List.take_append_drop i cs]
    rw [List.drop_eq_getElem_cons hilt]
    have : cs[i] = Branch.node cf ccs := (List.getElem?_eq_some.mp hci).2
    rw [this]
  rw [invertRoot_eq f cs i cf ccs hci, List.eraseIdx_eq_take_drop_succ]
  rw [List.perm_iff_count]
  intro a
  conv_rhs => rw [hdecomp]
  simp only [allGuids, allGuidsL_append, allGuidsL, List.count_append,
    List.count_cons, List.count_nil]
  ring

/-- A leaf other than the inverted child itself lies either inside the
inverted child (at a valid index of its children) or under a sibling. -/
theorem invert_leaf_shape (f : BFields) (cs : List Branch) (i : ℕ)
    (cf : BFields) (ccs : List Branch) (hci : cs[i]? = some (.node cf ccs))
    (z : Path) (fz : BFields)
    (hfz : nodeAt (.node f cs) z = some (.node fz [])) (hne : z ≠ [i]) :
    (∃ k r, z = i :: k :: r ∧ k < ccs.length) ∨ (∃ j r, j ≠ i ∧ z = j :: r) := by
  cases z with
  | nil =>
    exfalso
    simp only [nodeAt, Option.some.injEq] at hfz
    injection hfz with h1 h2
    rw [h2] at hci
    simp at hci
  | cons j r =>
    by_cases hj : j = i
    · subst hj
      left
      cases r with
      | nil => exact absurd rfl hne
      | cons k r₂ =>
        refine ⟨k, r₂, rfl, ?_⟩
        simp only [nodeAt, hci] at hfz
        cases hk : ccs[k]? with
        | none => rw [hk] at hfz; simp at hfz
        | some ck => exact (List.getElem?_eq_some.mp hk).1
    · exact Or.inr ⟨j, r, hj, rfl⟩

/-- The branch at a surviving leaf path is unchanged by a root inversion. -/
theorem invert_leaf_nodeAt (f : BFields) (cs : List Branch) (i : ℕ)
    (cf : BFields) (ccs : List Branch) (hci : cs[i]? = some (.node cf ccs))
    (z : Path) (fz : BFields)
    (hfz : nodeAt (.node f cs) z = some (.node fz [])) (hne : z ≠ [i]) :
    nodeAt (invertRoot i (.node f cs)) (invMap i ccs.length z) =
      nodeAt (.node f cs) z := by
  rcases invert_leaf_shape f cs i cf ccs hci z fz hfz hne with
    ⟨k, r, rfl, hk⟩ | ⟨j, r, hj, rfl⟩
  · simp only [invMap, if_pos rfl]
    exact nodeAt_invertRoot_inside f cs i cf ccs hci k hk r
  · simp only [invMap, if_neg hj]
    exact nodeAt_invertRoot_sibling f cs i cf ccs hci j hj r

theorem lcp_cons_self (i : ℕ) (p q : List ℕ) :
    lcp (i :: p) (i :: q) = i :: lcp p q := by
  rw [lcp, if_pos rfl]

theorem pathSum_nil (t : Branch) : pathSum t [] = 0 := by
  cases t with
  | node f cs => rfl

theorem invMap_cons_self (i M : ℕ) (r : Path) : invMap i M (i :: r) = r := by
  simp [invMap]

theorem invMap_cons_ne (i M j : ℕ) (hj : j ≠ i) (r : Path) :
    invMap i M (j :: r) = M :: shiftIdx i j :: r := by
  simp [invMap, hj]

/-- The heart of the reroot step: `distLcp` between two surviving leaves is
unchanged by a single root inversion. -/
theorem invert_preserves_distLcp (f : BFields) (cs : List Branch) (i : ℕ)
    (cf : BFields) (ccs : List Branch) (hci : cs[i]? = some (.node cf ccs))
    (px py : Path) (fx fy : BFields)
    (hfx : nodeAt (.node f cs) px = some (.node fx []))
    (hfy : nodeAt (.node f cs) py = some (.node fy []))
    (hnex : px ≠ [i]) (hney : py ≠ [i]) :
    distLcp (invertRoot i (.node f cs))
        (invMap i ccs.length px) (invMap i ccs.length py) =
      distLcp (.node f cs) px py := by
  rcases invert_leaf_shape f cs i cf ccs hci px fx hfx hnex with
    ⟨kx, rx, rfl, hkx⟩ | ⟨jx, rx, hjx, rfl⟩
  · -- px inside the inverted child
    rw [invMap_cons_self]
    rcases invert_leaf_shape f cs i cf ccs hci py fy hfy hney with
      ⟨ky, ry, rfl, hky⟩ | ⟨jy, ry, hjy, rfl⟩
    · -- py inside as well
      rw [invMap_cons_self]
      have hx1 : pathSum (invertRoot i (.node f cs)) (kx :: rx) + cf.length =
          pathSum (.node f cs) (i :: kx :: rx) :=
        pathSum_invertRoot_inside f cs i cf ccs hci _ (Or.inr ⟨kx, rx, rfl, hkx⟩)
      have hy1 : pathSum (invertRoot i (.node f cs)) (ky :: ry) + cf.length =
          pathSum (.node f cs) (i :: ky :: ry) :=
        pathSum_invertRoot_inside f cs i cf ccs hci _ (Or.inr ⟨ky, ry, rfl, hky⟩)
      have hL1 : pathSum (invertRoot i (.node f cs)) (lcp (kx :: rx) (ky :: ry)) +
          cf.length = pathSum (.node f cs) (i :: lcp (kx :: rx) (ky :: ry)) := by
        apply pathSum_invertRoot_inside f cs i cf ccs hci
        by_cases hkk : kx = ky
        · subst hkk
          exact Or.inr ⟨kx, lcp rx ry, lcp_cons_self kx rx ry, hkx⟩
        · exact Or.inl (lcp_cons_ne kx ky rx ry hkk)
      rw [distLcp, distLcp, lcp_cons_self i (kx :: rx) (ky :: ry)]
      linarith
    · -- py under a sibling child
      rw [invMap_cons_ne i ccs.length jy hjy]
      have hx1 : pathSum (invertRoot i (.node f cs)) (kx :: rx) + cf.length =
          pathSum (.node f cs) (i :: kx :: rx) :=
        pathSum_invertRoot_inside f cs i cf ccs hci _ (Or.inr ⟨kx, rx, rfl, hkx⟩)
      have hy1 := pathSum_invertRoot_sibling f cs i cf ccs hci jy hjy ry
      have hL : lcp (i :: kx :: rx) (jy :: ry) = [] :=
        lcp_cons_ne i jy _ _ (Ne.symm hjy)
      have hL' : lcp (kx :: rx) (ccs.length :: shiftIdx i jy :: ry) = [] :=
        lcp_cons_ne kx ccs.length _ _ (Nat.ne_of_lt hkx)
      rw [distLcp, distLcp, hL, hL', pathSum_nil, pathSum_nil]
      linarith
  · -- px under a sibling child
    rw [invMap_cons_ne i ccs.length jx hjx]
    rcases invert_leaf_shape f cs i cf ccs hci py fy hfy hney with
      ⟨ky, ry, rfl, hky⟩ | ⟨jy, ry, hjy, rfl⟩
    · -- py inside the inverted child
      rw [invMap_cons_self]
      have hx1 := pathSum_invertRoot_sibling f cs i cf ccs hci jx hjx rx
      have hy1 : pathSum (invertRoot i (.node f cs)) (ky :: ry) + cf.length =
          pathSum (.node f cs) (i :: ky :: ry) :=
        pathSum_invertRoot_inside f cs i cf ccs hci _ (Or.inr ⟨ky, ry, rfl, hky⟩)
      have hL : lcp (jx :: rx) (i :: ky :: ry) = [] :=
        lcp_cons_ne jx i _ _ hjx
      have hL' : lcp (ccs.length :: shiftIdx i jx :: rx) (ky :: ry) = [] :=
        lcp_cons_ne ccs.length ky _ _ (Ne.symm (Nat.ne_of_lt hky))
      rw [distLcp, distLcp, hL, hL', pathSum_nil, pathSum_nil]
      linarith
    · -- py under a sibling child as well
      rw [invMap_cons_ne i ccs.length jy hjy]
      have hx1 := pathSum_invertRoot_sibling f cs i cf ccs hci jx hjx rx
      have hy1 := pathSum_invertRoot_sibling f cs i cf ccs hci jy hjy ry
      by_cases hjxy : jx = jy
      · subst hjxy
        have hL : lcp (jx :: rx) (jx :: ry) = jx :: lcp rx ry :=
          lcp_cons_self jx rx ry
        have hL' : lcp (ccs.length :: shiftIdx i jx :: rx)
            (ccs.length :: shiftIdx i jx :: ry) =
            ccs.length :: shiftIdx i jx :: lcp rx ry := by
          rw [lcp_cons_self, lcp_cons_self]
        have hM1 := pathSum_invertRoot_sibling f cs i cf ccs hci jx hjx (lcp rx ry)
        rw [distLcp, distLcp, hL, hL']
        linarith
      · have hL : lcp (jx :: rx) (jy :: ry) = [] :=
          lcp_cons_ne jx jy _ _ hjxy
        have hL' : lcp (ccs.length :: shiftIdx i jx :: rx)
            (ccs.length :: shiftIdx i jy :: ry) = [ccs.length] := by
          rw [lcp_cons_self,
            lcp_cons_ne _ _ _ _ (shiftIdx_inj i jx jy hjx hjy hjxy)]
        have hM := pathSum_invertRoot_oldRoot f cs i cf ccs hci
        rw [distLcp, distLcp, hL, hL', hM, pathSum_nil]
        linarith

/-- A single root inversion preserves `distanceTo` between two distinct
surviving leaves. -/
theorem invert_preserves_distanceTo (f : BFields) (cs : List Branch) (i : ℕ)
    (cf : BFields) (ccs : List Branch) (hci : cs[i]? = some (.node cf ccs))
    (hnd : (allGuids (.node f cs)).Nodup)
    (px py : Path) (fx fy : BFields)
    (hfx : nodeAt (.node f cs) px = some (.node fx []))
    (hfy : nodeAt (.node f cs) py = some (.node fy []))
    (hxy : px ≠ py) (hnex : px ≠ [i]) (hney : py ≠ [i]) :
    distanceTo (invertRoot i (.node f cs))
        (invMap i ccs.length px) (invMap i ccs.length py) =
      distanceTo (.node f cs) px py := by
  have hnd' : (allGuids (invertRoot i (.node f cs))).Nodup :=
    (allGuids_invertRoot_perm f cs i cf ccs hci).nodup_iff.mpr hnd
  have hfx' : nodeAt (invertRoot i (.node f cs)) (invMap i ccs.length px) =
      some (.node fx []) := by
    rw [invert_leaf_nodeAt f cs i cf ccs hci px fx hfx hnex]; exact hfx
  have hfy' : nodeAt (invertRoot i (.node f cs)) (invMap i ccs.length py) =
      some (.node fy []) := by
    rw [invert_leaf_nodeAt f cs i cf ccs hci py fy hfy hney]; exact hfy
  have hxy' : invMap i ccs.length px ≠ invMap i ccs.length py := by
    intro he
    rw [he, hfy'] at hfx'
    have hfxy : fx = fy := by
      injection hfx' with h1
      injection h1 with h2 h3
      exact h2.symm
    exact hxy (guid_inj px (.node fx []) (.node fy []) (.node f cs) py hnd
      hfx hfy (by rw [hfxy]))
  have hnpyx : ¬ py <+: px := by
    intro hpre
    exact hxy (leaf_eq_of_pref (.node f cs) ⟨fy, hfy⟩ hfx hpre).symm
  have hnpyx' : ¬ invMap i ccs.length py <+: invMap i ccs.length px := by
    intro hpre
    exact hxy' (leaf_eq_of_pref (invertRoot i (.node f cs))
      ⟨fy, hfy'⟩ hfx' hpre).symm
  rw [distanceTo_eq_distLcp (.node f cs) hnd px py (.node fx []) (.node fy [])
      hfx hfy hnpyx,
    distanceTo_eq_distLcp (invertRoot i (.node f cs)) hnd'
      (invMap i ccs.length px) (invMap i ccs.length py)
      (.node fx []) (.node fy []) hfx' hfy' hnpyx',
    invert_preserves_distLcp f cs i cf ccs hci px py fx fy hfx hfy hnex hney]

/-- The full `reroot` chain of inversions (before the final `fixDistances`):
guid uniqueness is preserved (the guid list is permuted), the target branch's
guid arrives at the root, the two surviving leaves keep their fields, and
`distanceTo` between them is unchanged. -/
theorem rerootPath_preserves (p : Path) : ∀ (t bt : Branch),
    (allGuids t).Nodup → nodeAt t p = some bt →
    ∀ (px py : Path) (fx fy : BFields),
      nodeAt t px = some (.node fx []) → nodeAt t py = some (.node fy []) →
      px ≠ py → px ≠ p → py ≠ p →
      nodeAt (rerootPath p t) (rerootMap p t px) = some (.node fx []) ∧
      nodeAt (rerootPath p t) (rerootMap p t py) = some (.node fy []) ∧
      (∃ rb, nodeAt (rerootPath p t) [] = some rb ∧
        rb.fields.guid = bt.fields.guid) ∧
      List.Perm (allGuids (rerootPath p t)) (allGuids t) ∧
      distanceTo (rerootPath p t) (rerootMap p t px) (rerootMap p t py) =
        distanceTo t px py := by
  induction p with
  | nil =>
    intro t bt hnd hb px py fx fy hfx hfy hxy hpx hpy
    simp only [rerootPath, rerootMap]
    refine ⟨hfx, hfy, ⟨t, by simp [nodeAt], ?_⟩, List.Perm.refl _, by trivial⟩
    simp only [nodeAt, Option.some.injEq] at hb
    rw [hb]
  | cons i p ih =>
    intro t bt hnd hb px py fx fy hfx hfy hxy hpx hpy
    cases t with
    | node f cs =>
      simp only [nodeAt] at hb
      cases hci0 : cs[i]? with
      | none => rw [hci0] at hb; simp at hb
      | some ci =>
        rw [hci0] at hb
        cases ci with
        | node cf ccs =>
          have hM : invM (.node f cs) i = ccs.length := by
            simp [invM, hci0]
          have hnex : px ≠ [i] := by
            intro hpxeq
            cases p with
            | nil => exact hpx hpxeq
            | cons q qs =>
              rw [hpxeq] at hfx
              simp only [nodeAt, hci0, Option.some.injEq] at hfx
              injection hfx with h1 h2
              rw [h2] at hb
              simp [nodeAt] at hb
          have hney : py ≠ [i] := by
            intro hpyeq
            cases p with
            | nil => exact hpy hpyeq
            | cons q qs =>
              rw [hpyeq] at hfy
              simp only [nodeAt, hci0, Option.some.injEq] at hfy
              injection hfy with h1 h2
              rw [h2] at hb
              simp [nodeAt] at hb
          have hnd' : (allGuids (invertRoot i (.node f cs))).Nodup :=
            (allGuids_invertRoot_perm f cs i cf ccs hci0).nodup_iff.mpr hnd
          have hfx' : nodeAt (invertRoot i (.node f cs))
              (invMap i ccs.length px) = some (.node fx []) := by
            rw [invert_leaf_nodeAt f cs i cf ccs hci0 px fx hfx hnex]
            exact hfx
          have hfy' : nodeAt (invertRoot i (.node f cs))
              (invMap i ccs.length py) = some (.node fy []) := by
            rw [invert_leaf_nodeAt f cs i cf ccs hci0 py fy hfy hney]
            exact hfy
          have hxy' : invMap i ccs.length px ≠ invMap i ccs.length py := by
            intro he
            have h2 := hfx'
            rw [he, hfy'] at h2
            have hfxy : fx = fy := by
              injection h2 with h1
              injection h1 with h3 h4
              exact h3.symm
            exact hxy (guid_inj px (.node fx []) (.node fy []) (.node f cs) py
              hnd hfx hfy (by rw [hfxy]))
          have hbfull : nodeAt (.node f cs) (i :: p) = some bt := by
            simp only [nodeAt, hci0]
            exact hb
          obtain ⟨bt', hbt', hgbt'⟩ : ∃ bt',
              nodeAt (invertRoot i (.node f cs)) p = some bt' ∧
                bt'.fields.guid = bt.fields.guid := by
            cases p with
            | nil =>
              refine ⟨.node { cf with length := f.length }
                  (ccs ++ [.node { f with length := cf.length }
                    (cs.eraseIdx i)]), ?_, ?_⟩
              · rw [invertRoot_eq f cs i cf ccs hci0]
                simp [nodeAt]
              · simp only [nodeAt, Option.some.injEq] at hb
                rw [← hb]
                rfl
            | cons k p₂ =>
              refine ⟨bt, ?_, rfl⟩
              simp only [nodeAt] at hb
              cases hk : ccs[k]? with
              | none => rw [hk] at hb; simp at hb
              | some ck =>
                rw [nodeAt_invertRoot_inside f cs i cf ccs hci0 k
                  (List.getElem?_eq_some.mp hk).1 p₂]
                exact hbfull
          have hpx' : invMap i ccs.length px ≠ p := by
            intro he
            have h2 := hfx'
            rw [he, hbt'] at h2
            have hbt'eq : bt' = .node fx [] := Option.some.inj h2
            rw [hbt'eq] at hgbt'
            exact hpx (guid_inj px (.node fx []) bt (.node f cs) (i :: p) hnd
              hfx hbfull hgbt')
          have hpy' : invMap i ccs.length py ≠ p := by
            intro he
            have h2 := hfy'
            rw [he, hbt'] at h2
            have hbt'eq : bt' = .node fy [] := Option.some.inj h2
            rw [hbt'eq] at hgbt'
            exact hpy (guid_inj py (.node fy []) bt (.node f cs) (i :: p) hnd
              hfy hbfull hgbt')
          obtain ⟨hA, hB, ⟨rb, hrb1, hrb2⟩, hD, hE⟩ :=
            ih (invertRoot i (.node f cs)) bt' hnd' hbt'
              (invMap i ccs.length px) (invMap i ccs.length py) fx fy
              hfx' hfy' hxy' hpx' hpy'
          simp only [rerootPath, rerootMap, hM]
          exact ⟨hA, hB, ⟨rb, hrb1, hrb2.trans hgbt'⟩,
            hD.trans (allGuids_invertRoot_perm f cs i cf ccs hci0),
            hE.trans (invert_preserves_distanceTo f cs i cf ccs hci0 hnd
              px py fx fy hfx hfy hxy hnex hney)⟩

/-! ## `fixDistances` only touches `depth`/`height`/`value`: every
distance-related observable is unchanged -/

theorem setDepthsL_eq_map (d : ℕ) : ∀ l : List Branch,
    setDepthsL d l = l.map (setDepths d) := by
  intro l
  induction l with
  | nil => rfl
  | cons c cs ih => rw [setDepthsL, List.map_cons, ih]

theorem setHVL_eq_map (m : ℕ) : ∀ l : List Branch,
    setHVL m l = l.map (setHV m) := by
  intro l
  induction l with
  | nil => rfl
  | cons c cs ih => rw [setHVL, List.map_cons, ih]

theorem guid_setDepths (d : ℕ) (b : Branch) :
    (setDepths d b).fields.guid = b.fields.guid := by
  cases b with
  | node f cs => rfl

theorem length_setDepths (d : ℕ) (b : Branch) :
    (setDepths d b).fields.length = b.fields.length := by
  cases b with
  | node f cs => rfl

theorem guid_setHV (m : ℕ) (b : Branch) :
    (setHV m b).fields.guid = b.fields.guid := by
  cases b with
  | node f cs => rfl

theorem length_setHV (m : ℕ) (b : Branch) :
    (setHV m b).fields.length = b.fields.length := by
  cases b with
  | node f cs => rfl

theorem nodeAt_setDepths (p : Path) : ∀ (t : Branch) (d : ℕ),
    nodeAt (setDepths d t) p = (nodeAt t p).map (setDepths (d + p.length)) := by
  induction p with
  | nil => intro t d; simp [nodeAt]
  | cons i p ih =>
    intro t d
    cases t with
    | node f cs =>
      simp only [setDepths, nodeAt, setDepthsL_eq_map, List.getElem?_map]
      cases hc : cs[i]? with
      | none => simp
      | some c =>
        simp only [Option.map_some']
        have harith : d + 1 + p.length = d + (i :: p).length := by
          simp only [List.length_cons]
          omega
        rw [ih c (d + 1), harith]

theorem nodeAt_setHV (p : Path) : ∀ (t : Branch) (m : ℕ),
    nodeAt (setHV m t) p = (nodeAt t p).map (setHV m) := by
  induction p with
  | nil => intro t m; simp [nodeAt]
  | cons i p ih =>
    intro t m
    cases t with
    | node f cs =>
      simp only [setHV, nodeAt, setHVL_eq_map, List.getElem?_map]
      cases hc : cs[i]? with
      | none => simp
      | some c =>
        simp only [Option.map_some']
        rw [ih c m]

theorem nodeAt_fixDistances (t : Branch) (p : Path) :
    nodeAt (fixDistances t) p = (nodeAt t p).map
      (fun b => setHV (maxDepth (setDepths 0 t)) (setDepths p.length b)) := by
  simp only [fixDistances]
  rw [nodeAt_setHV p (setDepths 0 t) (maxDepth (setDepths 0 t)),
    nodeAt_setDepths p t 0]
  cases h : nodeAt t p with
  | none => rfl
  | some b => simp [Nat.zero_add]

mutual

theorem allGuids_setDepths (t : Branch) : ∀ d : ℕ,
    allGuids (setDepths d t) = allGuids t := by
  cases t with
  | node f cs =>
    intro d
    simp only [setDepths, allGuids]
    rw [allGuidsL_setDepthsL cs (d + 1)]
termination_by structural t

theorem allGuidsL_setDepthsL (l : List Branch) : ∀ d : ℕ,
    allGuidsL (setDepthsL d l) = allGuidsL l := by
  cases l with
  | nil => intro d; rfl
  | cons c cs =>
    intro d
    simp only [setDepthsL, allGuidsL]
    rw [allGuids_setDepths c d, allGuidsL_setDepthsL cs d]
termination_by structural l

end

mutual

theorem allGuids_setHV (t : Branch) : ∀ m : ℕ,
    allGuids (setHV m t) = allGuids t := by
  cases t with
  | node f cs =>
    intro m
    simp only [setHV, allGuids]
    rw [allGuidsL_setHVL cs m]
termination_by structural t

theorem allGuidsL_setHVL (l : List Branch) : ∀ m : ℕ,
    allGuidsL (setHVL m l) = allGuidsL l := by
  cases l with
  | nil => intro m; rfl
  | cons c cs =>
    intro m
    simp only [setHVL, allGuidsL]
    rw [allGuids_setHV c m, allGuidsL_setHVL cs m]
termination_by structural l

end

theorem strictDescGuids_setHV_setDepths (m k : ℕ) (b : Branch) :
    strictDescGuids (setHV m (setDepths k b)) = strictDescGuids b := by
  cases b with
  | node f cs =>
    simp only [setDepths, setHV, strictDescGuids]
    rw [allGuidsL_setHVL, allGuidsL_setDepthsL]

theorem guidAt_fixDistances (t : Branch) (p : Path) :
    guidAt (fixDistances t) p = guidAt t p := by
  rw [guidAt, guidAt, nodeAt_fixDistances]
  cases hc : nodeAt t p with
  | none => rfl
  | some b =>
    simp only [Option.map_some']
    rw [guid_setHV, guid_setDepths]

theorem depthOfGo_fixDistances (t : Branch) (g : ℕ) : ∀ (p : Path) (acc : ℚ),
    depthOfGo (fixDistances t) g p acc = depthOfGo t g p acc := by
  have key : ∀ (n : ℕ) (p : Path) (acc : ℚ), p.length = n →
      depthOfGo (fixDistances t) g p acc = depthOfGo t g p acc := by
    intro n
    induction n using Nat.strong_induction_on with
    | _ n ih =>
      intro p acc hlen
      conv_lhs => rw [depthOfGo]
      conv_rhs => rw [depthOfGo]
      rw [nodeAt_fixDistances]
      cases hc : nodeAt t p with
      | none => rfl
      | some cur =>
        simp only [Option.map_some']
        rw [guid_setHV, guid_setDepths, length_setHV, length_setDepths]
        by_cases hgg : cur.fields.guid = g
        · rw [if_pos hgg, if_pos hgg]
        · rw [if_neg hgg, if_neg hgg]
          by_cases hpe : p = []
          · rw [dif_pos hpe, dif_pos hpe]
          · rw [dif_neg hpe, dif_neg hpe]
            have hlt : p.dropLast.length < n := by
              rw [← hlen]
              simp only [List.length_dropLast]
              exact Nat.sub_lt (List.length_pos.mpr hpe) Nat.one_pos
            exact ih p.dropLast.length hlt p.dropLast _ rfl
  intro p acc
  exact key p.length p acc rfl

theorem getMRCA_fixDistances (t : Branch) (gy : ℕ) : ∀ p : Path,
    getMRCA (fixDistances t) p gy = getMRCA t p gy := by
  have key : ∀ (n : ℕ) (p : Path), p.length = n →
      getMRCA (fixDistances t) p gy = getMRCA t p gy := by
    intro n
    induction n using Nat.strong_induction_on with
    | _ n ih =>
      intro p hlen
      conv_lhs => rw [getMRCA]
      conv_rhs => rw [getMRCA]
      rw [nodeAt_fixDistances]
      cases hc : nodeAt t p with
      | none => rfl
      | some m =>
        simp only [Option.map_some']
        rw [strictDescGuids_setHV_setDepths]
        by_cases hcont : (strictDescGuids m).contains gy = true
        · rw [if_pos hcont, if_pos hcont]
        · rw [if_neg hcont, if_neg hcont]
          by_cases hpe : p = []
          · rw [dif_pos hpe, dif_pos hpe]
          · rw [dif_neg hpe, dif_neg hpe]
            have hlt : p.dropLast.length < n := by
              rw [← hlen]
              simp only [List.length_dropLast]
              exact Nat.sub_lt (List.length_pos.mpr hpe) Nat.one_pos
            exact ih p.dropLast.length hlt p.dropLast rfl
  intro p
  exact key p.length p rfl

theorem depthOf_fixDistances (t : Branch) (ps pd : Path) :
    depthOf (fixDistances t) ps pd = depthOf t ps pd := by
  simp only [depthOf, guidAt_fixDistances]
  cases hg : guidAt t ps with
  | none => rfl
  | some g => exact depthOfGo_fixDistances t g pd 0

theorem distanceTo_fixDistances (t : Branch) (px py : Path) :
    distanceTo (fixDistances t) px py = distanceTo t px py := by
  simp only [distanceTo, guidAt_fixDistances]
  cases hgy : guidAt t py with
  | none => rfl
  | some gy =>
    dsimp only
    rw [getMRCA_fixDistances t gy px]
    cases hm : getMRCA t px gy with
    | error e => rfl
    | ok m =>
      dsimp only
      rw [depthOf_fixDistances t m px, depthOf_fixDistances t m py]

mutual

theorem findPathG_setDepths (g : ℕ) (t : Branch) : ∀ d : ℕ,
    findPathG (setDepths d t) g = findPathG t g := by
  cases t with
  | node f cs =>
    intro d
    simp only [setDepths, findPathG]
    rw [findPathGL_setDepthsL g cs (d + 1) 0]
termination_by structural t

theorem findPathGL_setDepthsL (g : ℕ) (l : List Branch) : ∀ d i : ℕ,
    findPathGL (setDepthsL d l) g i = findPathGL l g i := by
  cases l with
  | nil => intro d i; rfl
  | cons c cs =>
    intro d i
    simp only [setDepthsL, findPathGL]
    rw [findPathG_setDepths g c d, findPathGL_setDepthsL g cs d (i + 1)]
termination_by structural l

end

mutual

theorem findPathG_setHV (g : ℕ) (t : Branch) : ∀ m : ℕ,
    findPathG (setHV m t) g = findPathG t g := by
  cases t with
  | node f cs =>
    intro m
    simp only [setHV, findPathG]
    rw [findPathGL_setHVL g cs m 0]
termination_by structural t

theorem findPathGL_setHVL (g : ℕ) (l : List Branch) : ∀ m i : ℕ,
    findPathGL (setHVL m l) g i = findPathGL l g i := by
  cases l with
  | nil => intro m i; rfl
  | cons c cs =>
    intro m i
    simp only [setHVL, findPathGL]
    rw [findPathG_setHV g c m, findPathGL_setHVL g cs m (i + 1)]
termination_by structural l

end

theorem findPathG_fixDistances (t : Branch) (g : ℕ) :
    findPathG (fixDistances t) g = findPathG t g := by
  simp only [fixDistances]
  rw [findPathG_setHV g (setDepths 0 t) (maxDepth (setDepths 0 t)),
    findPathG_setDepths g t 0]

theorem distanceBetweenG_fixDistances (t : Branch) (gx gy : ℕ) :
    distanceBetweenG (fixDistances t) gx gy = distanceBetweenG t gx gy := by
  simp only [distanceBetweenG, findPathG_fixDistances]
  cases hx : findPathG t gx with
  | none =>
    cases hy : findPathG t gy with
    | none => rfl
    | some py => rfl
  | some px =>
    cases hy : findPathG t gy with
    | none => rfl
    | some py =>
      simp only [distanceBetween]
      exact distanceTo_fixDistances t px py

/-! ## `findPathG` finds exactly the (unique) path of a guid -/

mutual

theorem findPathG_correct (t : Branch) : ∀ (g : ℕ) (q : Path),
    findPathG t g = some q → ∃ b, nodeAt t q = some b ∧ b.fields.guid = g := by
  cases t with
  | node f cs =>
    intro g q hq
    by_cases hg : f.guid = g
    · simp only [findPathG, if_pos hg] at hq
      obtain rfl : ([] : Path) = q := Option.some.inj hq
      exact ⟨.node f cs, by simp [nodeAt], hg⟩
    · simp only [findPathG, if_neg hg] at hq
      obtain ⟨j, p', c, b, hq', hc, hb, hgb⟩ := findPathGL_correct cs g 0 q hq
      refine ⟨b, ?_, hgb⟩
      rw [hq']
      simp only [Nat.zero_add, nodeAt, hc]
      exact hb
termination_by structural t

theorem findPathGL_correct (cs : List Branch) : ∀ (g i : ℕ) (q : Path),
    findPathGL cs g i = some q →
      ∃ (j : ℕ) (p' : Path) (c b : Branch),
        q = (i + j) :: p' ∧ cs[j]? = some c ∧
          nodeAt c p' = some b ∧ b.fields.guid = g := by
  cases cs with
  | nil => intro g i q hq; simp [findPathGL] at hq
  | cons c cs =>
    intro g i q hq
    cases hfc : findPathG c g with
    | some p =>
      simp only [findPathGL, hfc] at hq
      obtain ⟨b, hb, hgb⟩ := findPathG_correct c g p hfc
      refine ⟨0, p, c, b, ?_, by simp, hb, hgb⟩
      rw [Nat.add_zero]
      exact (Option.some.inj hq).symm
    | none =>
      simp only [findPathGL, hfc] at hq
      obtain ⟨j, p', c', b, hq', hc', hb, hgb⟩ :=
        findPathGL_correct cs g (i + 1) q hq
      refine ⟨j + 1, p', c', b, ?_, by simpa using hc', hb, hgb⟩
      rw [hq']
      have : i + 1 + j = i + (j + 1) := by omega
      rw [this]
termination_by structural cs

end

mutual

theorem findPathG_complete (t : Branch) : ∀ g : ℕ, g ∈ allGuids t →
    ∃ q, findPathG t g = some q := by
  cases t with
  | node f cs =>
    intro g hg
    by_cases hfg : f.guid = g
    · exact ⟨[], by rw [findPathG, if_pos hfg]⟩
    · rw [allGuids, List.mem_cons] at hg
      rcases hg with hg | hg
      · exact absurd hg.symm hfg
      · obtain ⟨q, hq⟩ := findPathGL_complete cs g hg 0
        exact ⟨q, by rw [findPathG, if_neg hfg]; exact hq⟩
termination_by structural t

theorem findPathGL_complete (cs : List Branch) : ∀ g : ℕ, g ∈ allGuidsL cs →
    ∀ i : ℕ, ∃ q, findPathGL cs g i = some q := by
  cases cs with
  | nil => intro g hg; simp [allGuidsL] at hg
  | cons c cs =>
    intro g hg i
    cases hfc : findPathG c g with
    | some p => exact ⟨i :: p, by rw [findPathGL, hfc]⟩
    | none =>
      rw [allGuidsL, List.mem_append] at hg
      rcases hg with hg | hg
      · obtain ⟨q, hq⟩ := findPathG_complete c g hg
        rw [hfc] at hq
        cases hq
      · obtain ⟨q, hq⟩ := findPathGL_complete cs g hg (i + 1)
        exact ⟨q, by rw [findPathGL, hfc]; exact hq⟩
termination_by structural cs

end

/-- In a guid-unique tree `findPathG` recovers exactly the path of any given
live branch. -/
theorem findPathG_eq (t : Branch) (hnd : (allGuids t).Nodup) (q : Path)
    (b : Branch) (hq : nodeAt t q = some b) :
    findPathG t b.fields.guid = some q := by
  obtain ⟨q', hq'⟩ := findPathG_complete t b.fields.guid
    (mem_allGuids_of_nodeAt q b t hq)
  obtain ⟨b', hb', hgb'⟩ := findPathG_correct t b.fields.guid q' hq'
  have heq : q' = q := guid_inj q' b' b t q hnd hb' hq hgb'
  rw [hq', heq]

end Branch

/-- C7 (amended): `b.depthOf(d)` never loops: if `d` lies in the subtree of
`b` (including `d = b`) it returns the sum of the `length` fields along the
path from `d` up to (and excluding) `b`; otherwise the climb walks past the
root and fails with a *TypeError* from dereferencing the null parent
(`null.length`) — it terminates and surfaces an error, but by null
dereference, not by the explicit detection the claim describes. -/
theorem c7_depthOf_characterization (t : Branch) (hnd : (Branch.allGuids t).Nodup)
    (pb pd : Branch.Path) (bb bd : Branch)
    (hb : Branch.nodeAt t pb = some bb) (hd : Branch.nodeAt t pd = some bd) :
    (pb <+: pd →
      Branch.depthOf t pb pd = .ok (Branch.pathSum t pd - Branch.pathSum t pb)) ∧
    (¬ pb <+: pd → Branch.depthOf t pb pd = .error .typeError) := by
  constructor
  · intro hp
    obtain ⟨q, rfl⟩ := hp
    unfold Branch.depthOf Branch.guidAt
    rw [hb]
    simp only [Option.map_some']
    rw [Branch.depthOfGo_of_pref t hnd pb bb hb q bd hd 0]
    ring_nf
  · intro hnp
    unfold Branch.depthOf Branch.guidAt
    rw [hb]
    simp only [Option.map_some']
    exact Branch.depthOfGo_not_pref t hnd pb bb hb pd bd hnp hd 0

/-- Witness for `c7_depthOf_characterization` at the cherry tree: the root's
`depthOf` of its first leaf is that leaf's length, and the first leaf's
`depthOf` of its sibling is a TypeError. -/
theorem c7_witness :
    Branch.depthOf cherry [] [0] =
        .ok (Branch.pathSum cherry [0] - Branch.pathSum cherry []) ∧
      Branch.depthOf cherry [0] [1] = .error .typeError := by
  constructor
  · exact (c7_depthOf_characterization cherry (by decide) [] [0] cherry (tb 1 1 [])
      rfl rfl).1 ⟨[0], rfl⟩
  · exact (c7_depthOf_characterization cherry (by decide) [0] [1] (tb 1 1 [])
      (tb 2 2 []) rfl rfl).2 (by
        intro h
        obtain ⟨q, hq⟩ := h
        simp at hq)

/-- C5: for every non-root branch `b` (child `i` of the branch at `pp`),
`b.excise()` (1) replaces `b` in the parent's children list by `b`'s children
pushed at the end, each with `b.length` absorbed into its `length`; (2) lowers
the total node count by exactly one; and (3) leaves `distanceTo` between any
two distinct leaves that are not in the excised branch's subtree unchanged
(their paths survive, with a sibling index shifted by the splice). -/
theorem c5_excise_properties (t : Branch) (hnd : (Branch.allGuids t).Nodup)
    (pp : Branch.Path) (i : ℕ) (m b : Branch)
    (hm : Branch.nodeAt t pp = some m) (hbi : m.children[i]? = some b) :
    Branch.nodeAt (Branch.excise t pp i) pp = some (Branch.exciseChild i m) ∧
    (Branch.exciseChild i m).children =
      m.children.eraseIdx i ++ b.children.map (Branch.addLength b.fields.length) ∧
    (∀ c ∈ b.children, (Branch.addLength b.fields.length c).fields.length =
      c.fields.length + b.fields.length) ∧
    Branch.size (Branch.excise t pp i) + 1 = Branch.size t ∧
    (∀ (px py : Branch.Path) (fx fy : BFields),
      Branch.nodeAt t px = some (.node fx []) →
      Branch.nodeAt t py = some (.node fy []) →
      px ≠ py → ¬ (pp ++ [i]) <+: px → ¬ (pp ++ [i]) <+: py →
      Branch.distanceTo (Branch.excise t pp i)
          (Branch.exciseMap pp i px) (Branch.exciseMap pp i py) =
        Branch.distanceTo t px py) := by
  have hchildren : (Branch.exciseChild i m).children =
      m.children.eraseIdx i ++
        b.children.map (Branch.addLength b.fields.length) := by
    cases m with
    | node f cs =>
      rw [Branch.children_node] at hbi
      rw [Branch.exciseChild, hbi]
      cases b with
      | node bf bcs => rfl
  have hsub1 : List.Subperm (Branch.allGuids (Branch.exciseChild i m))
      (Branch.allGuids m) := by
    cases m with
    | node f cs =>
      rw [Branch.children_node] at hbi
      exact Branch.allGuids_exciseChild_subperm f cs i b hbi
  have hnd' : (Branch.allGuids (Branch.excise t pp i)).Nodup := by
    rw [Branch.excise_eq_modifyAt]
    exact Branch.subperm_nodup
      (Branch.allGuids_modifyAt_subperm (Branch.exciseChild i) pp t m hm hsub1) hnd
  refine ⟨Branch.nodeAt_excise_self t pp i m hm, hchildren, ?_, ?_, ?_⟩
  · intro c _
    cases c with
    | node cf ccs => rfl
  · apply Branch.size_modifyAt (Branch.exciseChild i) pp t m hm
    cases m with
    | node f cs =>
      rw [Branch.children_node] at hbi
      exact Branch.size_exciseChild f cs i b hbi
  · intro px py fx fy hfx hfy hne hnx hny
    obtain ⟨hnodex, hnodey, hpsx, hpsy, hpsL⟩ :=
      Branch.excise_preserves_sums t pp i m b hm hbi px py fx fy hfx hfy hnx hny
    have hnpyx : ¬ py <+: px := by
      intro hpre
      exact hne (Branch.leaf_eq_of_pref t ⟨fy, hfy⟩ hfx hpre).symm
    have hfx' : Branch.nodeAt (Branch.excise t pp i) (Branch.exciseMap pp i px) =
        some (.node fx []) := by rw [hnodex]; exact hfx
    have hfy' : Branch.nodeAt (Branch.excise t pp i) (Branch.exciseMap pp i py) =
        some (.node fy []) := by rw [hnodey]; exact hfy
    have hne' : Branch.exciseMap pp i px ≠ Branch.exciseMap pp i py := by
      intro he
      rw [he, hfy'] at hfx'
      have hfxy : fx = fy := by
        injection hfx' with h1
        injection h1 with h2 h3
        exact h2.symm
      exact hne (Branch.guid_inj px (.node fx []) (.node fy []) t py hnd hfx hfy
        (by rw [hfxy]))
    have hnpyx' : ¬ Branch.exciseMap pp i py <+: Branch.exciseMap pp i px := by
      intro hpre
      exact hne' (Branch.leaf_eq_of_pref (Branch.excise t pp i)
        ⟨fy, hfy'⟩ hfx' hpre).symm
    rw [Branch.distanceTo_eq_distLcp t hnd px py (.node fx []) (.node fy [])
        hfx hfy hnpyx,
      Branch.distanceTo_eq_distLcp (Branch.excise t pp i) hnd'
        (Branch.exciseMap pp i px) (Branch.exciseMap pp i py)
        (.node fx []) (.node fy []) hfx' hfy' hnpyx']
    rw [Branch.distLcp, Branch.distLcp, hpsx, hpsy, hpsL]

/-- Witness for `c5_excise_properties`: excising the internal branch (guid 1)
of `c5tree` preserves the distance between the two leaf siblings. -/
theorem c5_witness :
    Branch.distanceTo (Branch.excise c5tree [] 0)
        (Branch.exciseMap [] 0 [1]) (Branch.exciseMap [] 0 [2]) =
      Branch.distanceTo c5tree [1] [2] :=
  (c5_excise_properties c5tree (by decide) [] 0 c5tree (tb 1 1 [tb 2 2 []])
      (by with_unfolding_all rfl) (by with_unfolding_all rfl)).2.2.2.2
    [1] [2] ⟨3, .str "", 3, 1, 0, 0, 1, .undef⟩ ⟨4, .str "", 4, 1, 0, 0, 1, .undef⟩
    (by with_unfolding_all rfl) (by with_unfolding_all rfl)
    (by decide) (by decide) (by decide)

/-- C9 (code bug): the `Branch` constructor initializes a *misspelled*
`respresenting` field to 1 and leaves `representing` undefined, so the
`this.parent.representing++` in `excise` computes `undefined + 1 = NaN`: after
excising the only child of the two-node tree, the parent's `representing` is
`NaN`, not the incremented numeric value `2` the spec describes. -/
theorem c9_representing_nan :
    twoNode.fields.respresenting = 1 ∧
      twoNode.fields.representing = JNum.undef ∧
      (Branch.excise twoNode [] 0).fields.representing = JNum.nan := by
  refine ⟨by with_unfolding_all rfl, by with_unfolding_all rfl, ?_⟩
  with_unfolding_all rfl

/-- C7 counterexample: on the two-leaf cherry, `b.depthOf(d)` for the sibling
leaf `d` (not a descendant of `b`) walks from `d` up past the root; the
`current != this` guard also passes for `current = null`, so the body
dereferences `null.length` and the call dies with a TypeError — it does *not*
detect the non-descendant and raise an explicit error, contradicting the claim
that it "fails explicitly … rather than dereferencing a null parent". -/
theorem c7_counterexample :
    Branch.depthOf cherry [0] [1] = .error .typeError := by
  with_unfolding_all rfl

/-- C3 counterexample: on the chain root → a (length 1) → b (length 2),
rerooting at `b` changes `distanceBetween(b, a)` from 4 to 2.  (Before: the
MRCA climb from `b` only stops at a branch with `a` among its *strict*
descendants, i.e. at the old root, giving `(2+1) + 1 = 4`; after rerooting,
`b` is the root and the distance is the single edge `2`.)  So pairwise
`distanceBetween` values are not all unchanged by `reroot`. -/
theorem c3_counterexample :
    Branch.distanceBetweenG (Branch.reroot chain3 [0, 0]) 2 1 ≠
      Branch.distanceBetweenG chain3 2 1 := by
  have h1 : Branch.distanceBetweenG (Branch.reroot chain3 [0, 0]) 2 1 =
      .ok 2 := by with_unfolding_all rfl
  have h2 : Branch.distanceBetweenG chain3 2 1 = .ok 4 := by
    with_unfolding_all rfl
  rw [h1, h2]
  intro h
  have := Except.ok.inj h
  norm_num at this

namespace Branch

/-! Basic facts about the two `fixDistances` passes. -/

mutual

theorem allDepths_setHV (m : ℕ) (t : Branch) :
    allDepths (setHV m t) = allDepths t := by
  cases t with
  | node f cs => simp [setHV, allDepths, allDepthsL_setHVL m cs]
termination_by structural t

theorem allDepthsL_setHVL (m : ℕ) (l : List Branch) :
    allDepthsL (setHVL m l) = allDepthsL l := by
  cases l with
  | nil => rfl
  | cons c cs =>
    simp [setHVL, allDepthsL, allDepths_setHV m c, allDepthsL_setHVL m cs]
termination_by structural l

end

mutual

theorem allHeights_setHV (m : ℕ) (t : Branch) :
    allHeights (setHV m t) = (allDepths t).map (fun x => m - x) := by
  cases t with
  | node f cs =>
    simp [setHV, allHeights, allDepths, allHeightsL_setHVL m cs]
termination_by structural t

theorem allHeightsL_setHVL (m : ℕ) (l : List Branch) :
    allHeightsL (setHVL m l) = (allDepthsL l).map (fun x => m - x) := by
  cases l with
  | nil => rfl
  | cons c cs =>
    simp [setHVL, allHeightsL, allDepthsL, allHeights_setHV m c,
      allHeightsL_setHVL m cs]
termination_by structural l

end

mutual

theorem setDepths_setDepths (d d' : ℕ) (t : Branch) :
    setDepths d (setDepths d' t) = setDepths d t := by
  cases t with
  | node f cs => simp [setDepths, setDepthsL_setDepthsL (d + 1) (d' + 1) cs]
termination_by structural t

theorem setDepthsL_setDepthsL (d d' : ℕ) (l : List Branch) :
    setDepthsL d (setDepthsL d' l) = setDepthsL d l := by
  cases l with
  | nil => rfl
  | cons c cs =>
    simp [setDepthsL, setDepths_setDepths d d' c, setDepthsL_setDepthsL d d' cs]
termination_by structural l

end

mutual

theorem allDepths_setDepths_setHV (d m : ℕ) (t : Branch) :
    allDepths (setDepths d (setHV m t)) = allDepths (setDepths d t) := by
  cases t with
  | node f cs =>
    simp [setHV, setDepths, allDepths, allDepthsL_setDepthsL_setHVL (d + 1) m cs]
termination_by structural t

theorem allDepthsL_setDepthsL_setHVL (d m : ℕ) (l : List Branch) :
    allDepthsL (setDepthsL d (setHVL m l)) = allDepthsL (setDepthsL d l) := by
  cases l with
  | nil => rfl
  | cons c cs =>
    simp [setHVL, setDepthsL, allDepthsL, allDepths_setDepths_setHV d m c,
      allDepthsL_setDepthsL_setHVL d m cs]
termination_by structural l

end

theorem foldr_max_init (l : List ℕ) (b : ℕ) :
    l.foldr max b = max (l.foldr max 0) b := by
  induction l with
  | nil => simp
  | cons a l ih => simp [ih, Nat.max_assoc]

mutual

theorem maxDepth_allDepths (t : Branch) :
    maxDepth t = (allDepths t).foldr max 0 := by
  cases t with
  | node f cs => simp [maxDepth, allDepths, maxDepthL_allDepthsL cs]
termination_by structural t

theorem maxDepthL_allDepthsL (l : List Branch) :
    maxDepthL l = (allDepthsL l).foldr max 0 := by
  cases l with
  | nil => rfl
  | cons c cs =>
    simp only [maxDepthL, allDepthsL, List.foldr_append, maxDepth_allDepths c,
      maxDepthL_allDepthsL cs]
    conv_rhs => rw [foldr_max_init]
termination_by structural l

end

end Branch

/-- C1 (amended): calling `fixDistances()` twice in succession leaves every
branch's `depth` and `height` identical to their values after the first call
(pre-order lists of the fields coincide).  The `value` fields are *not*
preserved — see `c1_counterexample`. -/
theorem c1_fixDistances_depth_height_idempotent (t : Branch) :
    Branch.allDepths (Branch.fixDistances (Branch.fixDistances t)) =
        Branch.allDepths (Branch.fixDistances t) ∧
      Branch.allHeights (Branch.fixDistances (Branch.fixDistances t)) =
        Branch.allHeights (Branch.fixDistances t) := by
  unfold Branch.fixDistances
  set t1 := Branch.setDepths 0 t with ht1
  set m1 := Branch.maxDepth t1 with hm1
  set T := Branch.setHV m1 t1 with hT
  set t2 := Branch.setDepths 0 T with ht2
  have hd2 : Branch.allDepths t2 = Branch.allDepths t1 := by
    rw [ht2, hT, Branch.allDepths_setDepths_setHV, ht1,
      Branch.setDepths_setDepths]
  have hm2 : Branch.maxDepth t2 = m1 := by
    rw [Branch.maxDepth_allDepths, hd2, ← Branch.maxDepth_allDepths]
  constructor
  · rw [Branch.allDepths_setHV, hd2, hT, Branch.allDepths_setHV]
  · rw [Branch.allHeights_setHV, hm2, hd2, hT, Branch.allHeights_setHV]

/-- C1 counterexample: on the two-node tree, the first `fixDistances` leaves
`value = 1` on the leaf and `value = 2` on the root, but the second call pushes
the root's value to `3`, because the post-order pass *adds* the children's
values to the stored value instead of rebuilding it.  So the `value` fields
after two calls differ from the `value` fields after one call. -/
theorem c1_counterexample :
    Branch.allValues (Branch.fixDistances (Branch.fixDistances twoNode)) ≠
      Branch.allValues (Branch.fixDistances twoNode) := by
  have h1 : Branch.allValues (Branch.fixDistances (Branch.fixDistances twoNode)) =
      [3, 1] := by with_unfolding_all rfl
  have h2 : Branch.allValues (Branch.fixDistances twoNode) = [2, 1] := by
    with_unfolding_all rfl
  rw [h1, h2]
  norm_num

/-- C3 (amended): `b.reroot()` does make `b` the root — the branch carrying
`b`'s guid arrives at the root position — but pairwise `distanceBetween`
values are *not* all unchanged (see `c3_counterexample`: any pair involving
`b` itself, or an ancestor/descendant pair, changes because `getMRCA` only
stops at *strict* ancestors).  What the rerooting chain of `invert` calls
does preserve is the distance between any two distinct leaves other than the
new root `b` itself. -/
theorem c3_reroot_leaf_distances (t : Branch) (hnd : (Branch.allGuids t).Nodup)
    (p : Branch.Path) (bt : Branch) (hb : Branch.nodeAt t p = some bt)
    (px py : Branch.Path) (fx fy : BFields)
    (hfx : Branch.nodeAt t px = some (.node fx []))
    (hfy : Branch.nodeAt t py = some (.node fy []))
    (hxy : px ≠ py) (hpx : px ≠ p) (hpy : py ≠ p) :
    (∃ rb, Branch.nodeAt (Branch.reroot t p) [] = some rb ∧
        rb.fields.guid = bt.fields.guid) ∧
      Branch.distanceBetweenG (Branch.reroot t p) fx.guid fy.guid =
        Branch.distanceBetweenG t fx.guid fy.guid := by
  obtain ⟨hA, hB, ⟨rb, hrb, hgrb⟩, hperm, hdist⟩ :=
    Branch.rerootPath_preserves p t bt hnd hb px py fx fy hfx hfy hxy hpx hpy
  constructor
  · rw [Branch.reroot, Branch.nodeAt_fixDistances, hrb]
    refine ⟨_, rfl, ?_⟩
    dsimp only
    rw [Branch.guid_setHV, Branch.guid_setDepths]
    exact hgrb
  · rw [Branch.reroot, Branch.distanceBetweenG_fixDistances]
    have hndR : (Branch.allGuids (Branch.rerootPath p t)).Nodup :=
      hperm.nodup_iff.mpr hnd
    have hfpx : Branch.findPathG (Branch.rerootPath p t) fx.guid =
        some (Branch.rerootMap p t px) := by
      have h := Branch.findPathG_eq (Branch.rerootPath p t) hndR
        (Branch.rerootMap p t px) (.node fx []) hA
      simpa using h
    have hfpy : Branch.findPathG (Branch.rerootPath p t) fy.guid =
        some (Branch.rerootMap p t py) := by
      have h := Branch.findPathG_eq (Branch.rerootPath p t) hndR
        (Branch.rerootMap p t py) (.node fy []) hB
      simpa using h
    have htx : Branch.findPathG t fx.guid = some px := by
      have h := Branch.findPathG_eq t hnd px (.node fx []) hfx
      simpa using h
    have hty : Branch.findPathG t fy.guid = some py := by
      have h := Branch.findPathG_eq t hnd py (.node fy []) hfy
      simpa using h
    rw [Branch.distanceBetweenG, Branch.distanceBetweenG,
      hfpx, hfpy, htx, hty]
    dsimp only
    simp only [Branch.distanceBetween]
    exact hdist

/-- Witness for `c3_reroot_leaf_distances`: rerooting `c5tree` at its internal
branch (guid 1) brings guid 1 to the root and keeps the distance between the
two leaf siblings (guids 3 and 4). -/
theorem c3_witness :
    (∃ rb, Branch.nodeAt (Branch.reroot c5tree [0]) [] = some rb ∧
        rb.fields.guid = 1) ∧
      Branch.distanceBetweenG (Branch.reroot c5tree [0]) 3 4 =
        Branch.distanceBetweenG c5tree 3 4 :=
  c3_reroot_leaf_distances c5tree (by decide) [0] (tb 1 1 [tb 2 2 []])
    (by with_unfolding_all rfl) [1] [2]
    ⟨3, .str "", 3, 1, 0, 0, 1, .undef⟩ ⟨4, .str "", 4, 1, 0, 0, 1, .undef⟩
    (by with_unfolding_all rfl) (by with_unfolding_all rfl)
    (by decide) (by decide) (by decide)

/-! ## The Newick round trip -/

theorem runChunks_append (xs : List (Delim × TextTok)) : ∀ (st : PState)
    (ys : List (Delim × TextTok)),
    runChunks st (xs ++ ys) =
      match runChunks st xs with
      | .ok st' => runChunks st' ys
      | .error e => .error e := by
  induction xs with
  | nil => intro st ys; rfl
  | cons x xs ih =>
    intro st ys
    obtain ⟨d, tok⟩ := x
    simp only [List.cons_append, runChunks]
    cases h1 : stepDelim st d with
    | error e => rfl
    | ok st1 =>
      dsimp only
      cases h2 : stepText st1 d tok with
      | error e => rfl
      | ok st2 =>
        dsimp only
        exact ih st2 ys

mutual

theorem serC_run (s : NSk) : ∀ anc : List PNode,
    ∃ n : PNode,
      runChunks ⟨anc, some ⟨(serC s).1.s, some 0, []⟩⟩ (serC s).2 =
        .ok ⟨anc, some n⟩ ∧ n.toPTree = toP s := by
  cases s with
  | node id len cs =>
    intro anc
    cases cs with
    | nil =>
      refine ⟨⟨id, some len, []⟩, ?_, by simp [PNode.toPTree, toP, toPL]⟩
      simp only [serC, lenTail]
      by_cases h0 : len = 0
      · rw [if_pos h0]
        simp only [runChunks]
        rw [h0]
      · rw [if_neg h0]
        simp only [runChunks, stepDelim, stepText]
    | cons c cs' =>
      obtain ⟨nc, hrun, hnc⟩ := serC_run c (⟨"", some 0, []⟩ :: anc)
      refine ⟨⟨id, some len, toP c :: toPL cs'⟩, ?_,
        by simp [PNode.toPTree, toP, toPL]⟩
      simp only [serC, runChunks, stepDelim, stepText, freshPNode]
      rw [runChunks_append ((serC c).2)]
      rw [hrun]
      dsimp only
      rw [List.append_cons (serL cs') (Delim.rp, (⟨id, none⟩ : TextTok))
        (lenTail len)]
      rw [runChunks_append (serL cs' ++ [(Delim.rp, (⟨id, none⟩ : TextTok))])]
      rw [serL_run cs' anc ⟨"", some 0, []⟩ nc ⟨id, none⟩]
      dsimp only
      simp only [List.nil_append, hnc, lenTail]
      by_cases h0 : len = 0
      · rw [if_pos h0]
        simp only [runChunks]
        rw [h0]
      · rw [if_neg h0]
        simp only [runChunks, stepDelim, stepText]
termination_by structural s

theorem serL_run (cs : List NSk) : ∀ (anc : List PNode) (a prev : PNode)
    (idt : TextTok),
    runChunks ⟨a :: anc, some prev⟩ (serL cs ++ [(.rp, idt)]) =
      .ok ⟨anc, some ⟨idt.s, a.plen, a.kids ++ prev.toPTree :: toPL cs⟩⟩ := by
  cases cs with
  | nil =>
    intro anc a prev idt
    simp only [serL, List.nil_append, runChunks, stepDelim, stepText, toPL]
  | cons c cs' =>
    intro anc a prev idt
    obtain ⟨nc, hrun, hnc⟩ :=
      serC_run c ({ a with kids := a.kids ++ [prev.toPTree] } :: anc)
    simp only [serL, List.cons_append, runChunks, stepDelim, stepText,
      freshPNode, List.append_eq]
    rw [List.append_assoc]
    rw [runChunks_append ((serC c).2)]
    rw [hrun]
    dsimp only
    rw [serL_run cs' anc { a with kids := a.kids ++ [prev.toPTree] } nc idt]
    rw [hnc]
    simp [toPL, List.append_assoc]
termination_by structural cs

end

/-- C2 counterexample: a tree that is a single leaf with id `"A"` serializes
to `"A;"`, whose id is the *leading* text token — processed at `t = 0`, where
`tokens[t-1]` is `undefined`, so the parser never assigns it.  The round trip
returns a bare branch with id `""` instead of `"A"`. -/
theorem c2_counterexample :
    parseNewickM (serStream (.node "A" 0 [])) = .ok (.node "" (some 0) []) ∧
      toP (.node "A" 0 []) = .node "A" (some 0) [] ∧
      (PTree.node "" (some 0) [] ≠ .node "A" (some 0) []) := by
  refine ⟨by with_unfolding_all rfl, by with_unfolding_all rfl, ?_⟩
  intro h
  injection h with h1 h2
  exact absurd h1 (by decide)

/-- C2 (amended): at the token level, parsing the serialization of any tree
whose *root is internal* returns exactly the expected skeleton — same
topology, same ids, same branch lengths (number tokens carry their exact
rational value, the claim's floating-point-tolerance allowance; zero lengths
are omitted by `toNewick` and restored as the parser's default 0).  The round
trip fails precisely for single-leaf trees, whose root id is emitted as the
ignored leading token (`c2_counterexample`). -/
theorem c2_newick_roundtrip (id : String) (len : ℚ) (c : NSk) (cs : List NSk) :
    parseNewickM (serStream (.node id len (c :: cs))) =
      .ok (toP (.node id len (c :: cs))) := by
  obtain ⟨n, hrun, hn⟩ := serC_run (.node id len (c :: cs)) []
  simp only [parseNewickM, serStream]
  rw [runChunks_append]
  rw [show (⟨[], some freshPNode⟩ : PState) =
      ⟨[], some ⟨(serC (NSk.node id len (c :: cs))).1.s, some 0, []⟩⟩ from
    by with_unfolding_all rfl]
  rw [hrun]
  dsimp only
  simp only [runChunks, stepDelim, stepText]
  rw [hn]

/-- C6 counterexample: the empty string splits into a single (ignored) text
token, and `parseNewick("")` silently returns the bare fresh root — `.ok`,
not any error — contradicting fail-fast behavior on malformed input. -/
theorem c6_counterexample :
    parseNewickM ⟨⟨"", none⟩, []⟩ = .ok (.node "" (some 0) []) := by
  with_unfolding_all rfl

/-- C6 (amended): `parseNewick` does *not* fail fast on malformed input.  The
empty string yields a bare default branch; the unbalanced `"(A"` silently
returns a partial tree (the leaf `A` still under construction); and the
unmatched `");"` dies with a *TypeError* (popping the empty ancestor stack
makes `tree` undefined and the next `tree.id = token` dereferences it) rather
than a descriptive parse error. -/
theorem c6_malformed_behavior :
    parseNewickM ⟨⟨"", none⟩, [(.lp, ⟨"A", none⟩)]⟩ =
      .ok (.node "A" (some 0) []) ∧
    parseNewickM ⟨⟨"", none⟩, [(.rp, ⟨"", none⟩), (.semi, ⟨"", none⟩)]⟩ =
      .error .typeError := by
  exact ⟨by with_unfolding_all rfl, by with_unfolding_all rfl⟩

/-! ## Neighbor joining on the concrete 4-taxon matrix -/

theorem njLoop_succ (fuel : ℕ) (st : NJState) :
    njLoop (fuel + 1) st =
      if st.cN ≤ 2 then some st
      else
        match njStep st with
        | none => none
        | some st' => njLoop fuel st' := rfl

/-- The full run of `parseMatrix` on the example matrix, staged through the
explicit intermediate states. -/
theorem parseMatrixM_c4 :
    parseMatrixM c4matrix (some c4labels) = some c4tree := by
  have h0 : njInit c4matrix (some c4labels) = c4st0 := by
    with_unfolding_all rfl
  have h1 : njStep c4st0 = some c4st1 := by with_unfolding_all rfl
  have h2 : njStep c4st1 = some c4st2 := by with_unfolding_all rfl
  have h3 : njFinish c4st2 = some c4tree := by with_unfolding_all rfl
  have hloop : njLoop 4 c4st0 = some c4st2 := by
    rw [show (4 : ℕ) = 3 + 1 from rfl, njLoop_succ,
      if_neg (by decide : ¬ c4st0.cN ≤ 2), h1]
    dsimp only
    rw [show (3 : ℕ) = 2 + 1 from rfl, njLoop_succ,
      if_neg (by decide : ¬ c4st1.cN ≤ 2), h2]
    dsimp only
    rw [show (2 : ℕ) = 1 + 1 from rfl, njLoop_succ,
      if_pos (by decide : c4st2.cN ≤ 2)]
  simp only [parseMatrixM]
  rw [show c4matrix.length = 4 from rfl, h0, hloop]
  dsimp only
  exact h3

/-- C4 counterexample: on the matrix `D = [[0,5,9,9],[5,0,10,10],
[9,10,0,8],[9,10,8,0]]` with labels `A B C D`, the tree returned by
`parseMatrix` does **not** have `C,D` as a sister pair: the second join faces
a three-way tie of the Q-criterion (all live pairs score `-14`) and the scan
order joins the `AB` clade with `C`, producing `(((A,B),C),D)`. -/
theorem c4_counterexample :
    (parseMatrixM c4matrix (some c4labels)).map
      (fun t => hasSisterPair t (.str "C") (.str "D")) = some false := by
  rw [parseMatrixM_c4]
  decide

/-- C4 (amended): the run is deterministic and produces exactly `c4tree` =
`(((A:2,B:3):3,C:4):2,D:2)`: `A,B` are a sister pair, `C,D` are *not* (the
tie in the Q-criterion is resolved by scan order towards the `AB`–`C` join),
the leaf ids come out in the input order, and `toMatrix()` on the result
reproduces the input matrix exactly — the tree is additive for `D` even
though its shape is not the claimed one. -/
theorem c4_nj_behavior :
    parseMatrixM c4matrix (some c4labels) = some c4tree ∧
    hasSisterPair c4tree (.str "A") (.str "B") = true ∧
    hasSisterPair c4tree (.str "C") (.str "D") = false ∧
    leafIds c4tree = c4labels ∧
    toMatrixM c4tree = c4matrix.map (fun row => row.map Except.ok) := by
  refine ⟨parseMatrixM_c4, by decide, by decide,
    by with_unfolding_all rfl, by with_unfolding_all rfl⟩

/-- C8 counterexample: `parseMatrix([[0,1],[1,0]])` with labels omitted gives
leaf ids `["", 1]` — the default labels are the raw *numbers*
`[...Array(N).keys()]`, and the constructor's `data.id || ""` collapses the
falsy label `0` to `""` — not the strings `["0", "1"]` the claim states. -/
theorem c8_counterexample :
    (parseMatrixM [[0, 1], [1, 0]] none).map leafIds =
        some [.str "", .num 1] ∧
      [JId.str "", JId.num 1] ≠ [JId.str "0", JId.str "1"] := by
  exact ⟨by with_unfolding_all rfl, by decide⟩

/-- C8 (amended): when `labels` is omitted, `parseMatrix` defaults it to
`[...Array(N).keys()]`, the raw *numbers* `0, …, n-1`, not their string
forms; each leaf id then passes through the constructor's `data.id || ""`,
so leaf `0` gets the empty-string id and the others keep their numeric ids.
Shown structurally for the default-label list of every matrix, and
end-to-end on the 2×2 matrix. -/
theorem c8_default_labels :
    (∀ m : List (List ℚ), (njInit m none).labels =
      (List.range m.length).map (fun i => JId.num i)) ∧
    (parseMatrixM [[0, 1], [1, 0]] none).map leafIds =
      some [.str "", .num 1] := by
  exact ⟨fun m => rfl, by with_unfolding_all rfl⟩

/-! ## C10: `addChild` does not detach from the old parent -/

theorem isConsistentA_false_of_child (a : Arena) (fuel x ch : ℕ) (nx : ANode)
    (hx : a[x]? = some nx) (hmem : ch ∈ nx.children)
    (hch : isConsistentA a fuel ch = false) :
    isConsistentA a (fuel + 1) x = false := by
  simp only [isConsistentA, hx]
  have hrec : nx.children.all (fun c => isConsistentA a fuel c) = false := by
    rw [List.all_eq_false]
    exact ⟨ch, hmem, by rw [hch]; simp⟩
  have hnem : nx.children.isEmpty = false := by
    rw [List.isEmpty_eq_false]
    rintro he
    rw [he] at hmem
    cases hmem
  simp [hnem, hrec]

theorem isConsistentA_false_chainUp (a : Arena) : ∀ (ys : List ℕ) (x r fuel : ℕ),
    chainUpB a x ys r = true → isConsistentA a fuel x = false →
    isConsistentA a (fuel + ys.length) r = false := by
  intro ys
  induction ys with
  | nil =>
    intro x r fuel hch hf
    simp only [chainUpB] at hch
    obtain rfl : x = r := by simpa using hch
    simpa using hf
  | cons y ys ih =>
    intro x r fuel hch hf
    simp only [chainUpB, Bool.and_eq_true] at hch
    obtain ⟨hlink, hrest⟩ := hch
    cases hy : a[y]? with
    | none => simp only [hy] at hlink; cases hlink
    | some n =>
      simp only [hy] at hlink
      have hmem : x ∈ n.children := Branch.contains_iff_mem.mp hlink
      have hy' := isConsistentA_false_of_child a fuel y x n hy hmem hf
      have hr := ih y r (fuel + 1) hrest hy'
      have harith : fuel + (y :: ys).length = fuel + 1 + ys.length := by
        simp only [List.length_cons]
        omega
      rw [harith]
      exact hr

/-- C10: for a branch `c` that already has a parent `p`, calling
`q.addChild(c)` on a different branch `q` repoints `c.parent` to `q` and
appends `c` to `q.children`, but does *not* remove `c` from `p.children`:
`p`'s children list still contains `c`, whose parent pointer now disagrees,
so `isConsistent()` returns false at `p` — and hence at `p`'s root along any
parent chain, given enough fuel for the recursive walk.  (A caller must
detach `c` first, e.g. via `isolate`, to keep the tree consistent.) -/
theorem c10_addChild_inconsistency (a : Arena) (p q c : ℕ) (np nq nc : ANode)
    (hp : a[p]? = some np) (hq : a[q]? = some nq) (hc : a[c]? = some nc)
    (hqp : q ≠ p) (hqc : q ≠ c) (hpc : p ≠ c)
    (hcp : nc.parent = some p) (hmem : c ∈ np.children) :
    (addChildA a q c)[c]? = some { nc with parent := some q } ∧
    (∃ nq', (addChildA a q c)[q]? = some nq' ∧
      nq'.children = nq.children ++ [c]) ∧
    ((addChildA a q c)[p]? = some np ∧ c ∈ np.children) ∧
    (∀ fuel, isConsistentA (addChildA a q c) (fuel + 1) p = false) ∧
    (∀ (ys : List ℕ) (r : ℕ), chainUpB (addChildA a q c) p ys r = true →
      ∀ fuel, isConsistentA (addChildA a q c) (fuel + 1 + ys.length) r =
        false) := by
  have hclen : c < a.length := (List.getElem?_eq_some.mp hc).1
  have ha1 : addChildA a q c =
      (a.set c { nc with parent := some q }).set q
        { nq with children := nq.children ++ [c] } := by
    simp only [addChildA, hc, List.getElem?_set_ne (fun he => hqc he.symm), hq]
  have hc' : (addChildA a q c)[c]? = some { nc with parent := some q } := by
    rw [ha1, List.getElem?_set_ne hqc, List.getElem?_set_self]
    exact hclen
  have hq' : (addChildA a q c)[q]? =
      some { nq with children := nq.children ++ [c] } := by
    rw [ha1, List.getElem?_set_self]
    rw [List.length_set]
    exact (List.getElem?_eq_some.mp hq).1
  have hp' : (addChildA a q c)[p]? = some np := by
    rw [ha1, List.getElem?_set_ne hqp,
      List.getElem?_set_ne (fun he => hpc he.symm)]
    exact hp
  have hfalse : ∀ fuel,
      isConsistentA (addChildA a q c) (fuel + 1) p = false := by
    intro fuel
    simp only [isConsistentA, hp']
    have hnem : np.children.isEmpty = false := by
      rw [List.isEmpty_eq_false]
      rintro he
      rw [he] at hmem
      cases hmem
    have hpar : np.children.all (fun ch =>
        match (addChildA a q c)[ch]? with
        | some nch => nch.parent == some p
        | none => false) = false := by
      rw [List.all_eq_false]
      refine ⟨c, hmem, ?_⟩
      simp only [hc']
      simp [hqp]
    simp [hnem, hpar]
  refine ⟨hc', ⟨_, hq', rfl⟩, ⟨hp', hmem⟩, hfalse, ?_⟩
  intro ys r hch fuel
  exact isConsistentA_false_chainUp (addChildA a q c) ys p r (fuel + 1)
    hch (hfalse fuel)

/-- Witness for `c10_addChild_inconsistency` on the concrete heap
`c10arena`: after `q.addChild(c)` (indices 3 and 2), `isConsistent()` at the
root (index 0, two levels of recursion) is false. -/
theorem c10_witness :
    isConsistentA (addChildA c10arena 3 2) 2 0 = false :=
  (c10_addChild_inconsistency c10arena 1 3 2 ⟨some 0, [2]⟩ ⟨some 0, []⟩
      ⟨some 1, []⟩ (by decide) (by decide) (by decide) (by decide)
      (by decide) (by decide) (by decide) (by decide)).2.2.2.2 [0] 0
    (by decide) 0

end Patristic
